import Mathlib

/-!
Verification development for the atomic reference-counted smart-pointer core
(`src/include/control_.hpp`: `control_block_base`, `control_block<T>`,
`SharedPtr<T>`, `WeakPtr<T>`).

The embedding is a sequential small-step machine.  A machine state holds the
list of control blocks ever allocated (a freed block keeps its slot, marked
freed, so that finalization/deallocation history stays observable), the live
`SharedPtr` handles and the live `WeakPtr` handles.  Handle members are
modelled by `HVal`: a C++ constructor that skips its member initialisation
leaves the member indeterminate (`HVal.indet`), and any later
lvalue-to-rvalue read of an indeterminate member is undefined behaviour,
modelled as `none` (the whole operation, and hence the whole trace, aborts).

Machine integers (`std::atomic<int>`) are modelled as `Int`; the reference
counts in this program stay far below any overflow boundary in every defined
trace, and no arithmetic here wraps.
-/

/-- A raw resource pointer: `none` is `nullptr`, `some n` identifies resource `n`. -/
abbrev Ptr := Option Nat

/-- Value of a class member that a constructor may have left uninitialised. -/
inductive HVal (α : Type) where
  | indet : HVal α
  | val : α → HVal α
deriving DecidableEq, Repr

/-- Lvalue-to-rvalue read of a member: reading an indeterminate value is
undefined behaviour (`none`). -/
def HVal.read {α : Type} : HVal α → Option α
  | .indet => none
  | .val a => some a

/-- `control_block_base` / `control_block<T>`: the two atomic counters and the
stored resource pointer.  The type-erased `deleter` is modelled only through
the record of its invocations (see `Slot.fins`). -/
structure ControlBlock where
  ref_cnt : Int
  weak_cnt : Int
  ptr : Ptr
deriving DecidableEq, Repr

/-- One heap slot for a control block.  `blk = none` means the block has been
`delete`d; `fins` records, oldest first, the argument of every
`delete_ptr()` (finalizer) invocation on this slot; `zt` counts the
decrements that moved `ref_cnt` from 1 to 0. -/
structure Slot where
  blk : Option ControlBlock
  fins : List Ptr
  zt : Nat
deriving DecidableEq, Repr

/-- `SharedPtr<T>`: the cached resource pointer and the control-block
reference (`none` = null, `some b` = block id `b`). -/
structure SharedPtr where
  ptr : HVal Ptr
  ctrl : HVal (Option Nat)
deriving DecidableEq, Repr

/-- `WeakPtr<T>`: same two members. -/
structure WeakPtr where
  ctrl : HVal (Option Nat)
  ptr : HVal Ptr
deriving DecidableEq, Repr

/-- `SharedPtr()` — the default-constructed (empty) handle. -/
def emptySP : SharedPtr := ⟨.val none, .val none⟩

/-- `WeakPtr()` — the default-constructed (empty) handle. -/
def emptyWP : WeakPtr := ⟨.val none, .val none⟩

/-- The whole machine: all control-block slots ever allocated, the
`SharedPtr` objects and the `WeakPtr` objects (a destroyed object's cell
becomes `none`). -/
structure Machine where
  blocks : List Slot
  sps : List (Option SharedPtr)
  wps : List (Option WeakPtr)
deriving DecidableEq, Repr

/-- `SharedPtr::release()` acting on the heap through a (read) `ctrl` member:
```
if (!ctrl) return;
if (ctrl->ref_cnt.fetch_sub(1, acq_rel) == 1) {
  ctrl->delete_ptr();
  if (ctrl->weak_cnt.load(acquire) == 0) { delete ctrl; }
}
```
Acting on a dangling block id is use-after-free, hence `none`. -/
def SharedPtr.releaseOn (blocks : List Slot) : Option Nat → Option (List Slot)
  | none => some blocks
  | some b =>
    match blocks[b]? with
    | none => none
    | some s =>
      match s.blk with
      | none => none
      | some cb =>
        if cb.ref_cnt = 1 then
          if cb.weak_cnt = 0 then
            some (blocks.set b ⟨none, s.fins ++ [cb.ptr], s.zt + 1⟩)
          else
            some (blocks.set b
              ⟨some { cb with ref_cnt := cb.ref_cnt - 1 }, s.fins ++ [cb.ptr], s.zt + 1⟩)
        else
          some (blocks.set b
            ⟨some { cb with ref_cnt := cb.ref_cnt - 1 }, s.fins, s.zt⟩)

/-- `WeakPtr::release()`:
```
if (!ctrl) return;
if (ctrl->weak_cnt.fetch_sub(1, acq_rel) == 1) {
  if (ctrl->ref_cnt.load() == 0) { delete ctrl; }
}
```
Never invokes `delete_ptr`. -/
def WeakPtr.releaseOn (blocks : List Slot) : Option Nat → Option (List Slot)
  | none => some blocks
  | some b =>
    match blocks[b]? with
    | none => none
    | some s =>
      match s.blk with
      | none => none
      | some cb =>
        if cb.weak_cnt = 1 then
          if cb.ref_cnt = 0 then
            some (blocks.set b ⟨none, s.fins, s.zt⟩)
          else
            some (blocks.set b
              ⟨some { cb with weak_cnt := cb.weak_cnt - 1 }, s.fins, s.zt⟩)
        else
          some (blocks.set b
            ⟨some { cb with weak_cnt := cb.weak_cnt - 1 }, s.fins, s.zt⟩)

/-- `SharedPtr(const SharedPtr& other)`:
```
if (other.ctrl) { other.ctrl->ref_cnt.fetch_add(1, release); ctrl = other.ctrl; ptr = other.ptr; }
```
No member-initialiser list: when `other.ctrl` is null the body is skipped and
both members of the new object stay indeterminate. -/
def SharedPtr.copyCtor (blocks : List Slot) (other : SharedPtr) :
    Option (List Slot × SharedPtr) :=
  match other.ctrl with
  | .indet => none
  | .val none => some (blocks, ⟨.indet, .indet⟩)
  | .val (some b) =>
    match blocks[b]? with
    | none => none
    | some s =>
      match s.blk with
      | none => none
      | some cb =>
        match other.ptr with
        | .indet => none
        | .val p =>
          some (blocks.set b ⟨some { cb with ref_cnt := cb.ref_cnt + 1 }, s.fins, s.zt⟩,
            ⟨.val p, .val (some b)⟩)

/-- `WeakPtr(const SharedPtr<T>& sp)`:
```
if (sp.ctrl) { sp.ctrl->weak_cnt.fetch_add(1, release); ctrl = sp.ctrl; ptr = sp.ptr; }
```
Also lacks a member-initialiser list: from an empty shared handle the new
weak handle's members stay indeterminate. -/
def WeakPtr.fromShared (blocks : List Slot) (sp : SharedPtr) :
    Option (List Slot × WeakPtr) :=
  match sp.ctrl with
  | .indet => none
  | .val none => some (blocks, ⟨.indet, .indet⟩)
  | .val (some b) =>
    match blocks[b]? with
    | none => none
    | some s =>
      match s.blk with
      | none => none
      | some cb =>
        match sp.ptr with
        | .indet => none
        | .val p =>
          some (blocks.set b ⟨some { cb with weak_cnt := cb.weak_cnt + 1 }, s.fins, s.zt⟩,
            ⟨.val (some b), .val p⟩)

/-- `WeakPtr(const WeakPtr& other)` — this one initialises
`ctrl(nullptr), ptr(nullptr)` before the body. -/
def WeakPtr.copyCtor (blocks : List Slot) (other : WeakPtr) :
    Option (List Slot × WeakPtr) :=
  match other.ctrl with
  | .indet => none
  | .val none => some (blocks, emptyWP)
  | .val (some b) =>
    match blocks[b]? with
    | none => none
    | some s =>
      match s.blk with
      | none => none
      | some cb =>
        match other.ptr with
        | .indet => none
        | .val p =>
          some (blocks.set b ⟨some { cb with weak_cnt := cb.weak_cnt + 1 }, s.fins, s.zt⟩,
            ⟨.val (some b), .val p⟩)

/-- `WeakPtr::lock()` in the sequential machine:
```
observed_ctrl = ctrl; if (!observed_ctrl) return SharedPtr<T>();
expected = observed_ctrl->ref_cnt.load(acquire);
loop: if (expected == 0) return SharedPtr<T>();
      if (CAS(expected, expected+1)) return SharedPtr<T>(ptr, observed_ctrl);
```
With no interference the CAS succeeds on the first attempt, so the loop is:
fail iff the observed strong count is 0, else increment once and wrap the
cached pointer and block via the private `SharedPtr(T*, control_block_base*)`
constructor (which performs no further increment). -/
def WeakPtr.lockOn (blocks : List Slot) (w : WeakPtr) :
    Option (List Slot × SharedPtr) :=
  match w.ctrl with
  | .indet => none
  | .val none => some (blocks, emptySP)
  | .val (some b) =>
    match blocks[b]? with
    | none => none
    | some s =>
      match s.blk with
      | none => none
      | some cb =>
        if cb.ref_cnt = 0 then some (blocks, emptySP)
        else
          match w.ptr with
          | .indet => none
          | .val p =>
            some (blocks.set b ⟨some { cb with ref_cnt := cb.ref_cnt + 1 }, s.fins, s.zt⟩,
              ⟨.val p, .val (some b)⟩)

/-- `T* get() { return ptr; }` — reads the cached pointer. -/
def SharedPtr.get (h : SharedPtr) : Option Ptr := h.ptr.read

/-- `explicit operator bool() { return ptr != nullptr; }`. -/
def SharedPtr.boolConv (h : SharedPtr) : Option Bool :=
  (h.ptr.read).map fun p => p.isSome

/-- The operations the claims quantify over.  Indices address objects in
`Machine.sps` / `Machine.wps`. -/
inductive Op where
  | newSP (r : Ptr)
  | copySP (src : Nat)
  | moveSP (src : Nat)
  | assignSP (dst src : Nat)
  | massignSP (dst src : Nat)
  | nullSP (i : Nat)
  | dropSP (i : Nat)
  | newWP (src : Nat)
  | copyWP (src : Nat)
  | moveWP (src : Nat)
  | nullWP (i : Nat)
  | dropWP (i : Nat)
  | lockWP (src : Nat)
deriving DecidableEq, Repr

/-- The live `SharedPtr` object at cell `i`, if any. -/
def Machine.getSP (m : Machine) (i : Nat) : Option SharedPtr :=
  match m.sps[i]? with
  | some (some h) => some h
  | _ => none

/-- The live `WeakPtr` object at cell `i`, if any. -/
def Machine.getWP (m : Machine) (i : Nat) : Option WeakPtr :=
  match m.wps[i]? with
  | some (some w) => some w
  | _ => none

/-- One sequential step.  `none` means the operation is impossible on this
state (no such live object) or runs into undefined behaviour. -/
def Machine.step (m : Machine) : Op → Option Machine
  | .newSP r =>
    -- SharedPtr(T* p) / SharedPtr(T* p, function<void(T*)> d):
    -- ctrl = new control_block<T>(p[, d]) with counters (1, 0).
    some { m with
      blocks := m.blocks ++ [⟨some ⟨1, 0, r⟩, [], 0⟩],
      sps := m.sps ++ [some ⟨.val r, .val (some m.blocks.length)⟩] }
  | .copySP src =>
    match m.getSP src with
    | none => none
    | some h =>
      match SharedPtr.copyCtor m.blocks h with
      | none => none
      | some (bs, h2) => some { m with blocks := bs, sps := m.sps ++ [some h2] }
  | .moveSP src =>
    -- SharedPtr(SharedPtr&& other): unconditional member reads, then
    -- other.ctrl = nullptr; other.ptr = nullptr.
    match m.getSP src with
    | none => none
    | some h =>
      match h.ctrl.read, h.ptr.read with
      | some c, some p =>
        some { m with sps := (m.sps.set src (some emptySP)) ++ [some ⟨.val p, .val c⟩] }
      | _, _ => none
  | .assignSP dst src =>
    -- operator=(const SharedPtr&): if (this == &other) return *this;
    -- SharedPtr temp(other); swap(temp);  (temp destructs at scope exit)
    match m.getSP dst, m.getSP src with
    | some hd, some hs =>
      if dst = src then some m
      else
        match SharedPtr.copyCtor m.blocks hs with
        | none => none
        | some (bs, temp) =>
          -- swap reads both objects' members
          match hd.ctrl.read, hd.ptr.read, temp.ctrl.read, temp.ptr.read with
          | some dc, some _, some tc, some tp =>
            match SharedPtr.releaseOn bs dc with
            | none => none
            | some bs2 =>
              some { m with
                blocks := bs2,
                sps := m.sps.set dst (some ⟨.val tp, .val tc⟩) }
          | _, _, _, _ => none
    | _, _ => none
  | .massignSP dst src =>
    -- operator=(SharedPtr&&): if (this == &other) return *this;
    -- release(); steal members; null the source.
    match m.getSP dst, m.getSP src with
    | some hd, some hs =>
      if dst = src then some m
      else
        match hd.ctrl.read with
        | none => none
        | some dc =>
          match SharedPtr.releaseOn m.blocks dc with
          | none => none
          | some bs =>
            match hs.ctrl.read, hs.ptr.read with
            | some c, some p =>
              some { m with
                blocks := bs,
                sps := (m.sps.set dst (some ⟨.val p, .val c⟩)).set src (some emptySP) }
            | _, _ => none
    | _, _ => none
  | .nullSP i =>
    -- operator=(std::nullptr_t): release(); ptr = nullptr; ctrl = nullptr;
    match m.getSP i with
    | none => none
    | some h =>
      match h.ctrl.read with
      | none => none
      | some c =>
        match SharedPtr.releaseOn m.blocks c with
        | none => none
        | some bs => some { m with blocks := bs, sps := m.sps.set i (some emptySP) }
  | .dropSP i =>
    -- ~SharedPtr() { release(); }
    match m.getSP i with
    | none => none
    | some h =>
      match h.ctrl.read with
      | none => none
      | some c =>
        match SharedPtr.releaseOn m.blocks c with
        | none => none
        | some bs => some { m with blocks := bs, sps := m.sps.set i none }
  | .newWP src =>
    match m.getSP src with
    | none => none
    | some h =>
      match WeakPtr.fromShared m.blocks h with
      | none => none
      | some (bs, w) => some { m with blocks := bs, wps := m.wps ++ [some w] }
  | .copyWP src =>
    match m.getWP src with
    | none => none
    | some w =>
      match WeakPtr.copyCtor m.blocks w with
      | none => none
      | some (bs, w2) => some { m with blocks := bs, wps := m.wps ++ [some w2] }
  | .moveWP src =>
    -- WeakPtr(WeakPtr&& other) : ctrl(nullptr), ptr(nullptr)
    -- { if (other.ctrl) { steal both members; null them in other; } }
    match m.getWP src with
    | none => none
    | some w =>
      match w.ctrl with
      | .indet => none
      | .val none => some { m with wps := m.wps ++ [some emptyWP] }
      | .val (some b) =>
        match w.ptr.read with
        | none => none
        | some p =>
          some { m with
            wps := (m.wps.set src (some emptyWP)) ++ [some ⟨.val (some b), .val p⟩] }
  | .nullWP i =>
    -- operator=(std::nullptr_t): release(); ptr = nullptr; ctrl = nullptr;
    match m.getWP i with
    | none => none
    | some w =>
      match w.ctrl.read with
      | none => none
      | some c =>
        match WeakPtr.releaseOn m.blocks c with
        | none => none
        | some bs => some { m with blocks := bs, wps := m.wps.set i (some emptyWP) }
  | .dropWP i =>
    -- ~WeakPtr() { release(); }
    match m.getWP i with
    | none => none
    | some w =>
      match w.ctrl.read with
      | none => none
      | some c =>
        match WeakPtr.releaseOn m.blocks c with
        | none => none
        | some bs => some { m with blocks := bs, wps := m.wps.set i none }
  | .lockWP src =>
    match m.getWP src with
    | none => none
    | some w =>
      match WeakPtr.lockOn m.blocks w with
      | none => none
      | some (bs, h) => some { m with blocks := bs, sps := m.sps ++ [some h] }

/-- Run a list of operations from a given state. -/
def Machine.runFrom (m : Machine) : List Op → Option Machine
  | [] => some m
  | op :: ops =>
    match m.step op with
    | none => none
    | some m2 => m2.runFrom ops

/-- The machine before any handle exists. -/
def machine0 : Machine := ⟨[], [], []⟩

/-- Run a list of operations from the initial state. -/
def run (ops : List Op) : Option Machine := machine0.runFrom ops

/-! ## Reference counting: the number of live handles naming a given block -/

/-- Contribution of one `SharedPtr` cell to the reference count of block `b`. -/
def cS (o : Option SharedPtr) (b : Nat) : Nat :=
  match o with
  | some h => if h.ctrl = HVal.val (some b) then 1 else 0
  | none => 0

/-- Number of live `SharedPtr` objects whose `ctrl` member names block `b`. -/
def countS : List (Option SharedPtr) → Nat → Nat
  | [], _ => 0
  | o :: t, b => cS o b + countS t b

/-- Contribution of one `WeakPtr` cell to the weak count of block `b`. -/
def cW (o : Option WeakPtr) (b : Nat) : Nat :=
  match o with
  | some w => if w.ctrl = HVal.val (some b) then 1 else 0
  | none => 0

/-- Number of live `WeakPtr` objects whose `ctrl` member names block `b`. -/
def countW : List (Option WeakPtr) → Nat → Nat
  | [], _ => 0
  | o :: t, b => cW o b + countW t b

/-- The bookkeeping invariant of one slot, given `ns`/`nw`, the number of live
strong/weak handles naming it.  A live block's counters equal the handle
counts; the finalizer has run (once, on the stored resource pointer) exactly
when the strong count has reached 0, and a live block with strong count 0 is
kept alive by a positive weak count; a freed slot saw exactly one finalizer
invocation and one strong zero-crossing, and no handle names it any more. -/
def SlotInv (ns nw : Nat) (s : Slot) : Prop :=
  (∀ cb, s.blk = some cb →
      cb.ref_cnt = (ns : Int) ∧ cb.weak_cnt = (nw : Int) ∧
      (cb.ref_cnt ≠ 0 → s.fins = [] ∧ s.zt = 0) ∧
      (cb.ref_cnt = 0 → s.fins = [cb.ptr] ∧ s.zt = 1 ∧ 0 < cb.weak_cnt)) ∧
  (s.blk = none → s.fins.length = 1 ∧ s.zt = 1 ∧ ns = 0 ∧ nw = 0)

/-- The machine invariant: every allocated slot satisfies `SlotInv`, and no
handle names a block id that was never allocated. -/
def MInv (m : Machine) : Prop :=
  (∀ b s, m.blocks[b]? = some s → SlotInv (countS m.sps b) (countW m.wps b) s) ∧
  (∀ b, m.blocks.length ≤ b → countS m.sps b = 0 ∧ countW m.wps b = 0)

def mC1 : Machine := ⟨[⟨none, [some 7], 1⟩], [none, none], []⟩

def mC3 : Machine :=
  ⟨[⟨some ⟨0, 1, some 5⟩, [some 5], 1⟩], [none], [some ⟨.val (some 0), .val (some 5)⟩]⟩

def sC3 : Slot := ⟨some ⟨0, 1, some 5⟩, [some 5], 1⟩

def sC3f : Slot := ⟨none, [some 5], 1⟩

def cbC3 : ControlBlock := ⟨0, 1, some 5⟩

def mC2 : Machine :=
  ⟨[⟨some ⟨1, 1, some 4⟩, [], 0⟩], [some ⟨.val (some 4), .val (some 0)⟩],
    [some ⟨.val (some 0), .val (some 4)⟩]⟩

def wC2 : WeakPtr := ⟨.val (some 0), .val (some 4)⟩

/-- Modelled from the spec: `SharedPtr::use_count()` is exercised by
src/src/test_smart.cpp but its definition is not under src/.  Per the spec it
"returns current value of the strong counter, or 0 if empty". -/
def use_count (blocks : List Slot) (h : SharedPtr) : Option Int :=
  match h.ctrl with
  | .indet => none
  | .val none => some 0
  | .val (some b) =>
    match blocks[b]? with
    | none => none
    | some s =>
      match s.blk with
      | none => none
      | some cb => some cb.ref_cnt

def mC4 : Machine :=
  ⟨[⟨some ⟨2, 0, some 3⟩, [], 0⟩],
    [some ⟨.val (some 3), .val (some 0)⟩, some ⟨.val (some 3), .val (some 0)⟩], []⟩

def mC10 : Machine :=
  ⟨[⟨some ⟨1, 0, some 2⟩, [], 0⟩], [some ⟨.val (some 2), .val (some 0)⟩], []⟩

def mC8 : Machine :=
  ⟨[⟨some ⟨1, 0, some 10⟩, [], 0⟩, ⟨some ⟨1, 0, some 11⟩, [], 0⟩],
    [some ⟨.val (some 10), .val (some 0)⟩, some ⟨.val (some 11), .val (some 1)⟩], []⟩

def bsC8 : List Slot := [⟨none, [some 10], 1⟩, ⟨some ⟨1, 0, some 11⟩, [], 0⟩]

/-- Modelled from the spec: `factory_construct<T>(constructor_args...) ->
SharedHandle<T>` — `make_shared` is called by src/src/test_make_shared.cpp
but its definition is not under src/.  Per the spec it performs a single
combined allocation (one record holding the two counters and the resource
object), forwards the constructor arguments to the resource, and returns a
handle with strong count 1; `fins` records finalizer invocations on the
embedded resource and `freed` whether the combined allocation was
deallocated. -/
structure Combined (α : Type) where
  ref_cnt : Int
  weak_cnt : Int
  obj : α
  fins : Nat
  freed : Bool
deriving DecidableEq, Repr

/-- Modelled from the spec: the factory forwards `args` to the resource
constructor `ctor` and embeds the result in the combined allocation with
counters (1, 0). -/
def factory_construct {α β : Type} (ctor : β → α) (args : β) : Combined α :=
  ⟨1, 0, ctor args, 0, false⟩

/-- `SharedPtr::release()` (control_.hpp:87-95) specialised to the combined
allocation: decrement; on the 1→0 crossing run the finalizer once and, with
no weak observers, deallocate. -/
def combinedRelease {α : Type} (c : Combined α) : Combined α :=
  if c.ref_cnt = 1 then
    let c2 := { c with ref_cnt := c.ref_cnt - 1, fins := c.fins + 1 }
    if c2.weak_cnt = 0 then { c2 with freed := true } else c2
  else { c with ref_cnt := c.ref_cnt - 1 }

/-- The resource of the spec's factory scenario: value / pair / text. -/
structure DemoRes where
  value : Int
  pair : ℚ
  text : String
deriving DecidableEq, Repr

/-- The resource constructor the factory forwards its arguments to. -/
def demoCtor (t : Int × ℚ × String) : DemoRes := ⟨t.1, t.2.1, t.2.2⟩

/-- Shared state for the zero-crossing race between one thread running
`SharedPtr::release()` and one thread running `WeakPtr::release()` on the
same control block; `fins` counts `delete_ptr()` calls and `frees` counts
`delete ctrl` calls.  `spc`/`wpc` are the two threads' program counters over
the atomic accesses of the source. -/
structure RaceState where
  ref_cnt : Int
  weak_cnt : Int
  fins : Nat
  frees : Nat
  spc : Nat
  wpc : Nat
deriving DecidableEq, Repr

/-- One atomic step of `SharedPtr::release()` (control_.hpp:87-95):
pc 0 — `ref_cnt.fetch_sub(1, acq_rel)`, branch on the returned old value;
pc 1 — `ctrl->delete_ptr()`;
pc 2 — `weak_cnt.load(acquire)`, branch;
pc 3 — `delete ctrl`;
pc 4 — done. -/
def sStep (s : RaceState) : RaceState :=
  match s.spc with
  | 0 => { s with ref_cnt := s.ref_cnt - 1, spc := if s.ref_cnt = 1 then 1 else 4 }
  | 1 => { s with fins := s.fins + 1, spc := 2 }
  | 2 => { s with spc := if s.weak_cnt = 0 then 3 else 4 }
  | 3 => { s with frees := s.frees + 1, spc := 4 }
  | _ => s

/-- One atomic step of `WeakPtr::release()` (control_.hpp:254-263):
pc 0 — `weak_cnt.fetch_sub(1, acq_rel)`, branch on the returned old value;
pc 1 — `ref_cnt.load()`, branch;
pc 2 — `delete ctrl`;
pc 3 — done. -/
def wStep (s : RaceState) : RaceState :=
  match s.wpc with
  | 0 => { s with weak_cnt := s.weak_cnt - 1, wpc := if s.weak_cnt = 1 then 1 else 3 }
  | 1 => { s with wpc := if s.ref_cnt = 0 then 2 else 3 }
  | 2 => { s with frees := s.frees + 1, wpc := 3 }
  | _ => s

/-- Run an interleaving: `true` steps the strong-release thread, `false`
steps the weak-release thread.  Every interleaving of these atomic accesses
is allowed under sequential consistency, hence also under the weaker
acquire/release orderings the source requests. -/
def raceRun (sched : List Bool) (s : RaceState) : RaceState :=
  sched.foldl (fun st c => if c then sStep st else wStep st) s

/-- One last strong handle and one last weak handle, each about to release. -/
def raceStart : RaceState := ⟨1, 1, 0, 0, 0, 0⟩

theorem countS_append (l1 l2 : List (Option SharedPtr)) (b : Nat) :
    countS (l1 ++ l2) b = countS l1 b + countS l2 b := by
  induction l1 with
  | nil => simp [countS]
  | cons o t ih => simp [countS, ih]; omega

theorem countW_append (l1 l2 : List (Option WeakPtr)) (b : Nat) :
    countW (l1 ++ l2) b = countW l1 b + countW l2 b := by
  induction l1 with
  | nil => simp [countW]
  | cons o t ih => simp [countW, ih]; omega

theorem countS_set (l : List (Option SharedPtr)) (i : Nat) (o x : Option SharedPtr)
    (b : Nat) (hget : l[i]? = some o) :
    countS (l.set i x) b + cS o b = countS l b + cS x b := by
  induction l generalizing i with
  | nil => simp at hget
  | cons o0 t ih =>
    cases i with
    | zero =>
      simp at hget
      subst hget
      simp [List.set, countS]
      omega
    | succ j =>
      simp at hget
      have := ih j hget
      simp [List.set, countS]
      omega

theorem countW_set (l : List (Option WeakPtr)) (i : Nat) (o x : Option WeakPtr)
    (b : Nat) (hget : l[i]? = some o) :
    countW (l.set i x) b + cW o b = countW l b + cW x b := by
  induction l generalizing i with
  | nil => simp at hget
  | cons o0 t ih =>
    cases i with
    | zero =>
      simp at hget
      subst hget
      simp [List.set, countW]
      omega
    | succ j =>
      simp at hget
      have := ih j hget
      simp [List.set, countW]
      omega

theorem cS_le_countS (l : List (Option SharedPtr)) (i : Nat) (o : Option SharedPtr)
    (b : Nat) (hget : l[i]? = some o) : cS o b ≤ countS l b := by
  induction l generalizing i with
  | nil => simp at hget
  | cons o0 t ih =>
    cases i with
    | zero =>
      simp at hget
      have e : cS o0 b = cS o b := by rw [hget]
      show cS o b ≤ cS o0 b + countS t b
      omega
    | succ j =>
      simp at hget
      have := ih j hget
      show cS o b ≤ cS o0 b + countS t b
      omega

theorem cW_le_countW (l : List (Option WeakPtr)) (i : Nat) (o : Option WeakPtr)
    (b : Nat) (hget : l[i]? = some o) : cW o b ≤ countW l b := by
  induction l generalizing i with
  | nil => simp at hget
  | cons o0 t ih =>
    cases i with
    | zero =>
      simp at hget
      have e : cW o0 b = cW o b := by rw [hget]
      show cW o b ≤ cW o0 b + countW t b
      omega
    | succ j =>
      simp at hget
      have := ih j hget
      show cW o b ≤ cW o0 b + countW t b
      omega

/-! ## The control-block invariant -/

/-! ## Invariant preservation -/

theorem getElem?_some_lt {α : Type} (l : List α) (i : Nat) (x : α)
    (h : l[i]? = some x) : i < l.length := by
  rw [List.getElem?_eq_some] at h
  exact h.1

/-- The invariant only depends on the heap and the per-block handle counts. -/
theorem minv_congr (blocks2 : List Slot) (sps2 : List (Option SharedPtr))
    (wps2 : List (Option WeakPtr)) (m : Machine) (hI : MInv m)
    (hb : blocks2 = m.blocks)
    (hs : ∀ b, countS sps2 b = countS m.sps b)
    (hw : ∀ b, countW wps2 b = countW m.wps b) :
    MInv ⟨blocks2, sps2, wps2⟩ := by
  constructor
  · intro b s hbs
    rw [hs b, hw b]
    exact hI.1 b s (hb ▸ hbs)
  · intro b hlen
    rw [hs b, hw b]
    exact hI.2 b (by rw [← hb]; exact hlen)

/-- Updating one slot preserves the invariant provided the handle counts of
every other block are unchanged and the new slot satisfies its own clause. -/
theorem minv_update (m : Machine) (sps2 : List (Option SharedPtr))
    (wps2 : List (Option WeakPtr)) (b0 : Nat) (news : Slot)
    (hI : MInv m)
    (hexists : b0 < m.blocks.length)
    (hs_ne : ∀ b, b ≠ b0 → countS sps2 b = countS m.sps b)
    (hw_ne : ∀ b, b ≠ b0 → countW wps2 b = countW m.wps b)
    (hnew : SlotInv (countS sps2 b0) (countW wps2 b0) news) :
    MInv ⟨m.blocks.set b0 news, sps2, wps2⟩ := by
  constructor
  · intro b s hbs
    rw [List.getElem?_set] at hbs
    by_cases e : b0 = b
    · subst e
      rw [if_pos rfl, if_pos hexists] at hbs
      injection hbs with hbs
      rw [← hbs]
      exact hnew
    · rw [if_neg e] at hbs
      rw [hs_ne b (fun x => e x.symm), hw_ne b (fun x => e x.symm)]
      exact hI.1 b s hbs
  · intro b hlen
    rw [List.length_set] at hlen
    have hne : b ≠ b0 := by omega
    rw [hs_ne b hne, hw_ne b hne]
    exact hI.2 b hlen

/-- Master lemma for every operation whose heap effect is
`SharedPtr::release()` through the `ctrl` member of a live handle `h` that the
operation simultaneously retires (the new handle population `sps2` accounts
for every reference of the old one except `h`'s). -/
theorem minv_strong_release (m : Machine) (i : Nat) (h : SharedPtr) (c : Option Nat)
    (blocks2 : List Slot) (sps2 : List (Option SharedPtr))
    (hI : MInv m) (hi : m.sps[i]? = some (some h)) (hc : h.ctrl = .val c)
    (hrel : SharedPtr.releaseOn m.blocks c = some blocks2)
    (hcnt : ∀ b, countS sps2 b + cS (some h) b = countS m.sps b) :
    MInv ⟨blocks2, sps2, m.wps⟩ := by
  rcases c with _ | b0
  · -- null ctrl: the heap is untouched and the handle contributed no reference
    simp only [SharedPtr.releaseOn] at hrel
    injection hrel with hrel
    have hz : ∀ b, cS (some h) b = 0 := by
      intro b
      simp [cS, hc]
    refine minv_congr _ _ _ m hI hrel.symm (fun b => ?_) (fun b => rfl)
    have := hcnt b
    rw [hz b] at this
    omega
  · cases hb : m.blocks[b0]? with
    | none =>
      simp only [SharedPtr.releaseOn, hb] at hrel
      exact Option.noConfusion hrel
    | some s0 =>
      cases hblk : s0.blk with
      | none =>
        simp only [SharedPtr.releaseOn, hb, hblk] at hrel
        exact Option.noConfusion hrel
      | some cb =>
        simp only [SharedPtr.releaseOn, hb, hblk] at hrel
        have hexists : b0 < m.blocks.length := getElem?_some_lt _ _ _ hb
        obtain ⟨href, hweak, hlive, hdead⟩ := (hI.1 b0 s0 hb).1 cb hblk
        have hcs1 : cS (some h) b0 = 1 := by simp [cS, hc]
        have hcsne : ∀ b, b ≠ b0 → cS (some h) b = 0 := by
          intro b hbne
          have hne2 : ¬ (HVal.val (α := Option Nat) (some b0) = HVal.val (some b)) := by
            simpa using fun e => hbne e.symm
          simp only [cS, hc, if_neg hne2]
        have hb0cnt : countS sps2 b0 + 1 = countS m.sps b0 := by
          have := hcnt b0
          rw [hcs1] at this
          exact this
        have hbcnt : ∀ b, b ≠ b0 → countS sps2 b = countS m.sps b := by
          intro b hbne
          have := hcnt b
          rw [hcsne b hbne] at this
          omega
        have hge1 : 1 ≤ countS m.sps b0 := by
          have := cS_le_countS m.sps i (some h) b0 hi
          rw [hcs1] at this
          exact this
        split_ifs at hrel with h1 h2
        · -- ref_cnt was 1, weak_cnt is 0: finalize, then free the block
          injection hrel with hrel
          rw [← hrel]
          refine minv_update m sps2 m.wps b0 _ hI hexists hbcnt (fun b _ => rfl) ?_
          obtain ⟨hf, hz⟩ := hlive (by omega)
          constructor
          · intro cb2 hcb2
            exact Option.noConfusion hcb2
          · intro _
            refine ⟨?_, ?_, ?_, ?_⟩
            · show (s0.fins ++ [cb.ptr]).length = 1
              simp [hf]
            · show s0.zt + 1 = 1
              omega
            · omega
            · omega
        · -- ref_cnt was 1, weak_cnt positive: finalize, block kept for observers
          injection hrel with hrel
          rw [← hrel]
          refine minv_update m sps2 m.wps b0 _ hI hexists hbcnt (fun b _ => rfl) ?_
          obtain ⟨hf, hz⟩ := hlive (by omega)
          constructor
          · intro cb2 hcb2
            injection hcb2 with hcb2
            refine ⟨?_, ?_, ?_, ?_⟩
            · rw [← hcb2]
              show cb.ref_cnt - 1 = (countS sps2 b0 : Int)
              omega
            · rw [← hcb2]
              show cb.weak_cnt = (countW m.wps b0 : Int)
              exact hweak
            · intro habs
              rw [← hcb2] at habs
              have habs2 : cb.ref_cnt - 1 ≠ 0 := habs
              exact absurd (show cb.ref_cnt - 1 = 0 by omega) habs2
            · intro _
              rw [← hcb2]
              refine ⟨?_, ?_, ?_⟩
              · show s0.fins ++ [cb.ptr] = [cb.ptr]
                simp [hf]
              · show s0.zt + 1 = 1
                omega
              · show (0 : Int) < cb.weak_cnt
                omega
          · intro hcb2
            exact Option.noConfusion hcb2
        · -- ref_cnt was greater than 1: plain decrement
          injection hrel with hrel
          rw [← hrel]
          refine minv_update m sps2 m.wps b0 _ hI hexists hbcnt (fun b _ => rfl) ?_
          have hge2 : 2 ≤ cb.ref_cnt := by omega
          constructor
          · intro cb2 hcb2
            injection hcb2 with hcb2
            refine ⟨?_, ?_, ?_, ?_⟩
            · rw [← hcb2]
              show cb.ref_cnt - 1 = (countS sps2 b0 : Int)
              omega
            · rw [← hcb2]
              show cb.weak_cnt = (countW m.wps b0 : Int)
              exact hweak
            · intro _
              exact hlive (by omega)
            · intro habs
              rw [← hcb2] at habs
              have habs2 : cb.ref_cnt - 1 = 0 := habs
              omega
          · intro hcb2
            exact Option.noConfusion hcb2

/-- Master lemma for every operation whose heap effect is
`WeakPtr::release()` through the `ctrl` member of a live weak handle `w` that
the operation simultaneously retires. -/
theorem minv_weak_release (m : Machine) (i : Nat) (w : WeakPtr) (c : Option Nat)
    (blocks2 : List Slot) (wps2 : List (Option WeakPtr))
    (hI : MInv m) (hi : m.wps[i]? = some (some w)) (hc : w.ctrl = .val c)
    (hrel : WeakPtr.releaseOn m.blocks c = some blocks2)
    (hcnt : ∀ b, countW wps2 b + cW (some w) b = countW m.wps b) :
    MInv ⟨blocks2, m.sps, wps2⟩ := by
  rcases c with _ | b0
  · simp only [WeakPtr.releaseOn] at hrel
    injection hrel with hrel
    have hz : ∀ b, cW (some w) b = 0 := by
      intro b
      simp [cW, hc]
    refine minv_congr _ _ _ m hI hrel.symm (fun b => rfl) (fun b => ?_)
    have := hcnt b
    rw [hz b] at this
    omega
  · cases hb : m.blocks[b0]? with
    | none =>
      simp only [WeakPtr.releaseOn, hb] at hrel
      exact Option.noConfusion hrel
    | some s0 =>
      cases hblk : s0.blk with
      | none =>
        simp only [WeakPtr.releaseOn, hb, hblk] at hrel
        exact Option.noConfusion hrel
      | some cb =>
        simp only [WeakPtr.releaseOn, hb, hblk] at hrel
        have hexists : b0 < m.blocks.length := getElem?_some_lt _ _ _ hb
        obtain ⟨href, hweak, hlive, hdead⟩ := (hI.1 b0 s0 hb).1 cb hblk
        have hcw1 : cW (some w) b0 = 1 := by simp [cW, hc]
        have hcwne : ∀ b, b ≠ b0 → cW (some w) b = 0 := by
          intro b hbne
          have hne2 : ¬ (HVal.val (α := Option Nat) (some b0) = HVal.val (some b)) := by
            simpa using fun e => hbne e.symm
          simp only [cW, hc, if_neg hne2]
        have hb0cnt : countW wps2 b0 + 1 = countW m.wps b0 := by
          have := hcnt b0
          rw [hcw1] at this
          exact this
        have hbcnt : ∀ b, b ≠ b0 → countW wps2 b = countW m.wps b := by
          intro b hbne
          have := hcnt b
          rw [hcwne b hbne] at this
          omega
        have hge1 : 1 ≤ countW m.wps b0 := by
          have := cW_le_countW m.wps i (some w) b0 hi
          rw [hcw1] at this
          exact this
        split_ifs at hrel with h1 h2
        · -- weak_cnt was 1, ref_cnt is 0: deallocate (never finalizes)
          injection hrel with hrel
          rw [← hrel]
          refine minv_update m m.sps wps2 b0 _ hI hexists (fun b _ => rfl) hbcnt ?_
          obtain ⟨hf, hz, hwpos⟩ := hdead (by omega)
          constructor
          · intro cb2 hcb2
            exact Option.noConfusion hcb2
          · intro _
            refine ⟨?_, ?_, ?_, ?_⟩
            · show s0.fins.length = 1
              simp [hf]
            · show s0.zt = 1
              exact hz
            · omega
            · omega
        · -- weak_cnt was 1, ref_cnt positive: plain decrement to 0
          injection hrel with hrel
          rw [← hrel]
          refine minv_update m m.sps wps2 b0 _ hI hexists (fun b _ => rfl) hbcnt ?_
          constructor
          · intro cb2 hcb2
            injection hcb2 with hcb2
            refine ⟨?_, ?_, ?_, ?_⟩
            · rw [← hcb2]
              show cb.ref_cnt = (countS m.sps b0 : Int)
              exact href
            · rw [← hcb2]
              show cb.weak_cnt - 1 = (countW wps2 b0 : Int)
              omega
            · intro hr
              rw [← hcb2] at hr
              exact hlive hr
            · intro habs
              rw [← hcb2] at habs
              have habs2 : cb.ref_cnt = 0 := habs
              exact absurd habs2 h2
          · intro hcb2
            exact Option.noConfusion hcb2
        · -- weak_cnt was greater than 1: plain decrement
          injection hrel with hrel
          rw [← hrel]
          refine minv_update m m.sps wps2 b0 _ hI hexists (fun b _ => rfl) hbcnt ?_
          have hge2 : 2 ≤ cb.weak_cnt := by omega
          constructor
          · intro cb2 hcb2
            injection hcb2 with hcb2
            refine ⟨?_, ?_, ?_, ?_⟩
            · rw [← hcb2]
              show cb.ref_cnt = (countS m.sps b0 : Int)
              exact href
            · rw [← hcb2]
              show cb.weak_cnt - 1 = (countW wps2 b0 : Int)
              omega
            · intro hr
              rw [← hcb2] at hr
              exact hlive hr
            · intro habs
              rw [← hcb2] at habs
              have habs2 : cb.ref_cnt = 0 := habs
              obtain ⟨hf0, hz0, hwpos⟩ := hdead habs2
              rw [← hcb2]
              refine ⟨?_, ?_, ?_⟩
              · show s0.fins = [cb.ptr]
                exact hf0
              · show s0.zt = 1
                exact hz0
              · show (0 : Int) < cb.weak_cnt - 1
                omega
          · intro hcb2
            exact Option.noConfusion hcb2

/-- Appending a handle that names no block changes no count. -/
theorem minv_append_sp (m : Machine) (h2 : SharedPtr)
    (hI : MInv m) (hz : ∀ b, cS (some h2) b = 0) :
    MInv ⟨m.blocks, m.sps ++ [some h2], m.wps⟩ := by
  refine minv_congr _ _ _ m hI rfl (fun b => ?_) (fun b => rfl)
  rw [countS_append]
  show countS m.sps b + (cS (some h2) b + 0) = countS m.sps b
  rw [hz b]
  omega

/-- Appending a weak handle that names no block changes no count. -/
theorem minv_append_wp (m : Machine) (w2 : WeakPtr)
    (hI : MInv m) (hz : ∀ b, cW (some w2) b = 0) :
    MInv ⟨m.blocks, m.sps, m.wps ++ [some w2]⟩ := by
  refine minv_congr _ _ _ m hI rfl (fun b => rfl) (fun b => ?_)
  rw [countW_append]
  show countW m.wps b + (cW (some w2) b + 0) = countW m.wps b
  rw [hz b]
  omega

/-- `ref_cnt.fetch_add(1)` on a block whose strong count is positive, paired
with the appearance of one new strong handle naming it (copy construction,
and the successful branch of `lock()`). -/
theorem minv_strong_inc (m : Machine) (b0 : Nat) (s0 : Slot) (cb : ControlBlock)
    (hI : MInv m) (hb : m.blocks[b0]? = some s0) (hblk : s0.blk = some cb)
    (hrefpos : cb.ref_cnt ≠ 0)
    (h2 : SharedPtr) (hctrl : h2.ctrl = .val (some b0)) :
    MInv ⟨m.blocks.set b0 ⟨some { cb with ref_cnt := cb.ref_cnt + 1 }, s0.fins, s0.zt⟩,
          m.sps ++ [some h2], m.wps⟩ := by
  have hexists : b0 < m.blocks.length := getElem?_some_lt _ _ _ hb
  obtain ⟨href, hweak, hlive, hdead⟩ := (hI.1 b0 s0 hb).1 cb hblk
  obtain ⟨hf, hz⟩ := hlive hrefpos
  have hcs1 : cS (some h2) b0 = 1 := by simp [cS, hctrl]
  have hcsne : ∀ b, b ≠ b0 → cS (some h2) b = 0 := by
    intro b hbne
    have hne2 : ¬ (HVal.val (α := Option Nat) (some b0) = HVal.val (some b)) := by
      simpa using fun e => hbne e.symm
    simp only [cS, hctrl, if_neg hne2]
  have happ : ∀ b, countS (m.sps ++ [some h2]) b = countS m.sps b + cS (some h2) b := by
    intro b
    rw [countS_append]
    show countS m.sps b + (cS (some h2) b + 0) = _
    omega
  refine minv_update m (m.sps ++ [some h2]) m.wps b0 _ hI hexists (fun b hbne => ?_)
    (fun b _ => rfl) ?_
  · rw [happ b, hcsne b hbne]
    omega
  · constructor
    · intro cb2 hcb2
      injection hcb2 with hcb2
      have hb0 : countS (m.sps ++ [some h2]) b0 = countS m.sps b0 + 1 := by
        rw [happ b0, hcs1]
      refine ⟨?_, ?_, ?_, ?_⟩
      · rw [← hcb2]
        show cb.ref_cnt + 1 = (countS (m.sps ++ [some h2]) b0 : Int)
        omega
      · rw [← hcb2]
        show cb.weak_cnt = (countW m.wps b0 : Int)
        exact hweak
      · intro _
        exact ⟨hf, hz⟩
      · intro habs
        rw [← hcb2] at habs
        have habs2 : cb.ref_cnt + 1 = 0 := habs
        have : 0 ≤ cb.ref_cnt := by omega
        omega
    · intro hcb2
      exact Option.noConfusion hcb2

/-- `weak_cnt.fetch_add(1)` on a live block, paired with the appearance of
one new weak handle naming it (weak construction from a shared or weak
handle). -/
theorem minv_weak_inc (m : Machine) (b0 : Nat) (s0 : Slot) (cb : ControlBlock)
    (hI : MInv m) (hb : m.blocks[b0]? = some s0) (hblk : s0.blk = some cb)
    (w2 : WeakPtr) (hctrl : w2.ctrl = .val (some b0)) :
    MInv ⟨m.blocks.set b0 ⟨some { cb with weak_cnt := cb.weak_cnt + 1 }, s0.fins, s0.zt⟩,
          m.sps, m.wps ++ [some w2]⟩ := by
  have hexists : b0 < m.blocks.length := getElem?_some_lt _ _ _ hb
  obtain ⟨href, hweak, hlive, hdead⟩ := (hI.1 b0 s0 hb).1 cb hblk
  have hcw1 : cW (some w2) b0 = 1 := by simp [cW, hctrl]
  have hcwne : ∀ b, b ≠ b0 → cW (some w2) b = 0 := by
    intro b hbne
    have hne2 : ¬ (HVal.val (α := Option Nat) (some b0) = HVal.val (some b)) := by
      simpa using fun e => hbne e.symm
    simp only [cW, hctrl, if_neg hne2]
  have happ : ∀ b, countW (m.wps ++ [some w2]) b = countW m.wps b + cW (some w2) b := by
    intro b
    rw [countW_append]
    show countW m.wps b + (cW (some w2) b + 0) = _
    omega
  refine minv_update m m.sps (m.wps ++ [some w2]) b0 _ hI hexists (fun b _ => rfl)
    (fun b hbne => ?_) ?_
  · rw [happ b, hcwne b hbne]
    omega
  · constructor
    · intro cb2 hcb2
      injection hcb2 with hcb2
      have hb0 : countW (m.wps ++ [some w2]) b0 = countW m.wps b0 + 1 := by
        rw [happ b0, hcw1]
      refine ⟨?_, ?_, ?_, ?_⟩
      · rw [← hcb2]
        show cb.ref_cnt = (countS m.sps b0 : Int)
        exact href
      · rw [← hcb2]
        show cb.weak_cnt + 1 = (countW (m.wps ++ [some w2]) b0 : Int)
        omega
      · intro hr
        rw [← hcb2] at hr
        exact hlive hr
      · intro habs
        rw [← hcb2] at habs
        have habs2 : cb.ref_cnt = 0 := habs
        obtain ⟨hf0, hz0, hwpos⟩ := hdead habs2
        rw [← hcb2]
        refine ⟨?_, ?_, ?_⟩
        · show s0.fins = [cb.ptr]
          exact hf0
        · show s0.zt = 1
          exact hz0
        · show (0 : Int) < cb.weak_cnt + 1
          omega
    · intro hcb2
      exact Option.noConfusion hcb2

/-- `SharedPtr(T* p)` / `SharedPtr(T* p, d)`: a fresh control block with
counters (1, 0) and a fresh handle naming it. -/
theorem minv_new (m : Machine) (r : Ptr) (hI : MInv m) :
    MInv ⟨m.blocks ++ [⟨some ⟨1, 0, r⟩, [], 0⟩],
          m.sps ++ [some ⟨.val r, .val (some m.blocks.length)⟩], m.wps⟩ := by
  have hcs : ∀ b, countS (m.sps ++ [some ⟨.val r, .val (some m.blocks.length)⟩]) b =
      countS m.sps b + (if m.blocks.length = b then 1 else 0) := by
    intro b
    rw [countS_append]
    show countS m.sps b +
      ((if HVal.val (some m.blocks.length) = HVal.val (α := Option Nat) (some b)
        then 1 else 0) + 0) = _
    by_cases e : m.blocks.length = b
    · subst e
      simp
    · have hne2 : ¬ (HVal.val (α := Option Nat) (some m.blocks.length) = HVal.val (some b)) := by
        simpa using e
      rw [if_neg hne2, if_neg e]
  constructor
  · intro b s hbs
    rw [List.getElem?_append] at hbs
    by_cases hlt : b < m.blocks.length
    · rw [if_pos hlt] at hbs
      have hne : m.blocks.length ≠ b := by omega
      rw [hcs b, if_neg hne]
      show SlotInv (countS m.sps b + 0) (countW m.wps b) s
      rw [Nat.add_zero]
      exact hI.1 b s hbs
    · rw [if_neg hlt] at hbs
      have hb0 : b - m.blocks.length = 0 := by
        rcases Nat.eq_or_lt_of_le (Nat.le_of_not_lt hlt) with he | hgt
        · omega
        · exfalso
          have : ([⟨some ⟨1, 0, r⟩, [], 0⟩] : List Slot)[b - m.blocks.length]? = none := by
            apply List.getElem?_eq_none
            simp
            omega
          rw [this] at hbs
          exact Option.noConfusion hbs
      have hbeq : b = m.blocks.length := by omega
      rw [hb0] at hbs
      simp only [List.getElem?_cons_zero] at hbs
      injection hbs with hbs
      rw [← hbs]
      subst hbeq
      obtain ⟨hs0, hw0⟩ := hI.2 m.blocks.length le_rfl
      constructor
      · intro cb2 hcb2
        injection hcb2 with hcb2
        rw [hcs m.blocks.length, if_pos rfl, hs0]
        refine ⟨?_, ?_, ?_, ?_⟩
        · rw [← hcb2]
          show (1 : Int) = ((0 + 1 : Nat) : Int)
          omega
        · rw [← hcb2]
          show (0 : Int) = (countW m.wps m.blocks.length : Int)
          omega
        · intro _
          exact ⟨rfl, rfl⟩
        · intro habs
          rw [← hcb2] at habs
          have : (1 : Int) = 0 := habs
          omega
      · intro hcb2
        exact Option.noConfusion hcb2
  · intro b hlen
    rw [List.length_append] at hlen
    simp only [List.length_cons, List.length_nil] at hlen
    have hne : m.blocks.length ≠ b := by omega
    rw [hcs b, if_neg hne]
    obtain ⟨hs0, hw0⟩ := hI.2 b (by omega)
    exact ⟨by omega, hw0⟩

theorem HVal.read_eq_some {α : Type} (v : HVal α) (a : α) (h : v.read = some a) :
    v = .val a := by
  cases v with
  | indet => exact Option.noConfusion h
  | val b =>
    rw [HVal.read] at h
    injection h with h
    rw [h]

theorem getSP_eq_some (m : Machine) (i : Nat) (h : SharedPtr)
    (hg : m.getSP i = some h) : m.sps[i]? = some (some h) := by
  unfold Machine.getSP at hg
  cases he : m.sps[i]? with
  | none =>
    rw [he] at hg
    exact Option.noConfusion hg
  | some o =>
    cases o with
    | none =>
      rw [he] at hg
      exact Option.noConfusion hg
    | some h2 =>
      rw [he] at hg
      injection hg with hg
      rw [hg]

theorem getWP_eq_some (m : Machine) (i : Nat) (w : WeakPtr)
    (hg : m.getWP i = some w) : m.wps[i]? = some (some w) := by
  unfold Machine.getWP at hg
  cases he : m.wps[i]? with
  | none =>
    rw [he] at hg
    exact Option.noConfusion hg
  | some o =>
    cases o with
    | none =>
      rw [he] at hg
      exact Option.noConfusion hg
    | some w2 =>
      rw [he] at hg
      injection hg with hg
      rw [hg]

/-- Copy construction of a `SharedPtr` preserves the invariant. -/
theorem minv_copyCtor (m : Machine) (i : Nat) (h : SharedPtr) (bs : List Slot)
    (h2 : SharedPtr) (hI : MInv m) (hi : m.sps[i]? = some (some h))
    (hcc : SharedPtr.copyCtor m.blocks h = some (bs, h2)) :
    MInv ⟨bs, m.sps ++ [some h2], m.wps⟩ := by
  cases hctrl : h.ctrl with
  | indet =>
    simp only [SharedPtr.copyCtor, hctrl] at hcc
    exact Option.noConfusion hcc
  | val c =>
    cases c with
    | none =>
      simp only [SharedPtr.copyCtor, hctrl] at hcc
      injection hcc with hcc
      injection hcc with hbs hh2
      rw [← hbs, ← hh2]
      exact minv_append_sp m _ hI (fun b => by simp [cS])
    | some b0 =>
      cases hb : m.blocks[b0]? with
      | none =>
        simp only [SharedPtr.copyCtor, hctrl, hb] at hcc
        exact Option.noConfusion hcc
      | some s0 =>
        cases hblk : s0.blk with
        | none =>
          simp only [SharedPtr.copyCtor, hctrl, hb, hblk] at hcc
          exact Option.noConfusion hcc
        | some cb =>
          cases hp : h.ptr with
          | indet =>
            simp only [SharedPtr.copyCtor, hctrl, hb, hblk, hp] at hcc
            exact Option.noConfusion hcc
          | val p =>
            simp only [SharedPtr.copyCtor, hctrl, hb, hblk, hp] at hcc
            injection hcc with hcc
            injection hcc with hbs hh2
            have hcs1 : cS (some h) b0 = 1 := by simp [cS, hctrl]
            have hge1 := cS_le_countS m.sps i (some h) b0 hi
            rw [hcs1] at hge1
            obtain ⟨href, _, _, _⟩ := (hI.1 b0 s0 hb).1 cb hblk
            have hrefpos : cb.ref_cnt ≠ 0 := by omega
            rw [← hbs, ← hh2]
            exact minv_strong_inc m b0 s0 cb hI hb hblk hrefpos _ rfl

/-- Construction of a `WeakPtr` from a `SharedPtr` preserves the invariant. -/
theorem minv_fromShared (m : Machine) (h : SharedPtr) (bs : List Slot)
    (w2 : WeakPtr) (hI : MInv m)
    (hcc : WeakPtr.fromShared m.blocks h = some (bs, w2)) :
    MInv ⟨bs, m.sps, m.wps ++ [some w2]⟩ := by
  cases hctrl : h.ctrl with
  | indet =>
    simp only [WeakPtr.fromShared, hctrl] at hcc
    exact Option.noConfusion hcc
  | val c =>
    cases c with
    | none =>
      simp only [WeakPtr.fromShared, hctrl] at hcc
      injection hcc with hcc
      injection hcc with hbs hh2
      rw [← hbs, ← hh2]
      exact minv_append_wp m _ hI (fun b => by simp [cW])
    | some b0 =>
      cases hb : m.blocks[b0]? with
      | none =>
        simp only [WeakPtr.fromShared, hctrl, hb] at hcc
        exact Option.noConfusion hcc
      | some s0 =>
        cases hblk : s0.blk with
        | none =>
          simp only [WeakPtr.fromShared, hctrl, hb, hblk] at hcc
          exact Option.noConfusion hcc
        | some cb =>
          cases hp : h.ptr with
          | indet =>
            simp only [WeakPtr.fromShared, hctrl, hb, hblk, hp] at hcc
            exact Option.noConfusion hcc
          | val p =>
            simp only [WeakPtr.fromShared, hctrl, hb, hblk, hp] at hcc
            injection hcc with hcc
            injection hcc with hbs hh2
            rw [← hbs, ← hh2]
            exact minv_weak_inc m b0 s0 cb hI hb hblk _ rfl

/-- Copy construction of a `WeakPtr` preserves the invariant. -/
theorem minv_copyCtorWP (m : Machine) (w : WeakPtr) (bs : List Slot)
    (w2 : WeakPtr) (hI : MInv m)
    (hcc : WeakPtr.copyCtor m.blocks w = some (bs, w2)) :
    MInv ⟨bs, m.sps, m.wps ++ [some w2]⟩ := by
  cases hctrl : w.ctrl with
  | indet =>
    simp only [WeakPtr.copyCtor, hctrl] at hcc
    exact Option.noConfusion hcc
  | val c =>
    cases c with
    | none =>
      simp only [WeakPtr.copyCtor, hctrl] at hcc
      injection hcc with hcc
      injection hcc with hbs hh2
      rw [← hbs, ← hh2]
      exact minv_append_wp m _ hI (fun b => by simp [cW, emptyWP])
    | some b0 =>
      cases hb : m.blocks[b0]? with
      | none =>
        simp only [WeakPtr.copyCtor, hctrl, hb] at hcc
        exact Option.noConfusion hcc
      | some s0 =>
        cases hblk : s0.blk with
        | none =>
          simp only [WeakPtr.copyCtor, hctrl, hb, hblk] at hcc
          exact Option.noConfusion hcc
        | some cb =>
          cases hp : w.ptr with
          | indet =>
            simp only [WeakPtr.copyCtor, hctrl, hb, hblk, hp] at hcc
            exact Option.noConfusion hcc
          | val p =>
            simp only [WeakPtr.copyCtor, hctrl, hb, hblk, hp] at hcc
            injection hcc with hcc
            injection hcc with hbs hh2
            rw [← hbs, ← hh2]
            exact minv_weak_inc m b0 s0 cb hI hb hblk _ rfl

/-- `WeakPtr::lock()` preserves the invariant. -/
theorem minv_lockOn (m : Machine) (w : WeakPtr) (bs : List Slot)
    (h2 : SharedPtr) (hI : MInv m)
    (hl : WeakPtr.lockOn m.blocks w = some (bs, h2)) :
    MInv ⟨bs, m.sps ++ [some h2], m.wps⟩ := by
  cases hctrl : w.ctrl with
  | indet =>
    simp only [WeakPtr.lockOn, hctrl] at hl
    exact Option.noConfusion hl
  | val c =>
    cases c with
    | none =>
      simp only [WeakPtr.lockOn, hctrl] at hl
      injection hl with hl
      injection hl with hbs hh2
      rw [← hbs, ← hh2]
      exact minv_append_sp m _ hI (fun b => by simp [cS, emptySP])
    | some b0 =>
      cases hb : m.blocks[b0]? with
      | none =>
        simp only [WeakPtr.lockOn, hctrl, hb] at hl
        exact Option.noConfusion hl
      | some s0 =>
        cases hblk : s0.blk with
        | none =>
          simp only [WeakPtr.lockOn, hctrl, hb, hblk] at hl
          exact Option.noConfusion hl
        | some cb =>
          by_cases hr : cb.ref_cnt = 0
          · simp only [WeakPtr.lockOn, hctrl, hb, hblk, if_pos hr] at hl
            injection hl with hl
            injection hl with hbs hh2
            rw [← hbs, ← hh2]
            exact minv_append_sp m _ hI (fun b => by simp [cS, emptySP])
          · cases hp : w.ptr with
            | indet =>
              simp only [WeakPtr.lockOn, hctrl, hb, hblk, if_neg hr, hp] at hl
              exact Option.noConfusion hl
            | val p =>
              simp only [WeakPtr.lockOn, hctrl, hb, hblk, if_neg hr, hp] at hl
              injection hl with hl
              injection hl with hbs hh2
              rw [← hbs, ← hh2]
              exact minv_strong_inc m b0 s0 cb hI hb hblk hr _ rfl

/-- Every defined step preserves the machine invariant. -/
theorem step_minv (m : Machine) (op : Op) (m2 : Machine)
    (hI : MInv m) (hstep : m.step op = some m2) : MInv m2 := by
  cases op with
  | newSP r =>
    simp only [Machine.step] at hstep
    injection hstep with hstep
    rw [← hstep]
    exact minv_new m r hI
  | copySP src =>
    simp only [Machine.step] at hstep
    cases hg : m.getSP src with
    | none =>
      simp only [hg] at hstep
      exact Option.noConfusion hstep
    | some h =>
      simp only [hg] at hstep
      cases hcc : SharedPtr.copyCtor m.blocks h with
      | none =>
        simp only [hcc] at hstep
        exact Option.noConfusion hstep
      | some pr =>
        obtain ⟨bs, h2⟩ := pr
        simp only [hcc] at hstep
        injection hstep with hstep
        rw [← hstep]
        exact minv_copyCtor m src h bs h2 hI (getSP_eq_some m src h hg) hcc
  | moveSP src =>
    simp only [Machine.step] at hstep
    cases hg : m.getSP src with
    | none =>
      simp only [hg] at hstep
      exact Option.noConfusion hstep
    | some h =>
      simp only [hg] at hstep
      cases hcr : h.ctrl.read with
      | none =>
        simp only [hcr] at hstep
        exact Option.noConfusion hstep
      | some c =>
        cases hpr : h.ptr.read with
        | none =>
          simp only [hcr, hpr] at hstep
          exact Option.noConfusion hstep
        | some p =>
          simp only [hcr, hpr] at hstep
          injection hstep with hstep
          rw [← hstep]
          have hi := getSP_eq_some m src h hg
          have hc := HVal.read_eq_some _ _ hcr
          have hcnt : ∀ b,
              countS ((m.sps.set src (some emptySP)) ++ [some ⟨.val p, .val c⟩]) b =
                countS m.sps b := by
            intro b
            rw [countS_append]
            have h1 := countS_set m.sps src (some h) (some emptySP) b hi
            have h2 : cS (some emptySP) b = 0 := by simp [cS, emptySP]
            have h3 : cS (some (⟨.val p, .val c⟩ : SharedPtr)) b = cS (some h) b := by
              simp [cS, hc]
            show countS (m.sps.set src (some emptySP)) b +
              (cS (some ⟨.val p, .val c⟩) b + 0) = _
            omega
          exact minv_congr _ _ _ m hI rfl hcnt (fun b => rfl)
  | assignSP dst src =>
    simp only [Machine.step] at hstep
    cases hgd : m.getSP dst with
    | none =>
      simp only [hgd] at hstep
      exact Option.noConfusion hstep
    | some hd =>
      cases hgs : m.getSP src with
      | none =>
        simp only [hgd, hgs] at hstep
        exact Option.noConfusion hstep
      | some hs =>
        simp only [hgd, hgs] at hstep
        by_cases he : dst = src
        · rw [if_pos he] at hstep
          injection hstep with hstep
          rw [← hstep]
          exact hI
        · rw [if_neg he] at hstep
          cases hcc : SharedPtr.copyCtor m.blocks hs with
          | none =>
            simp only [hcc] at hstep
            exact Option.noConfusion hstep
          | some pr =>
            obtain ⟨bs, temp⟩ := pr
            simp only [hcc] at hstep
            cases hdc : hd.ctrl.read with
            | none =>
              simp only [hdc] at hstep
              exact Option.noConfusion hstep
            | some dc =>
              cases hdp : hd.ptr.read with
              | none =>
                simp only [hdc, hdp] at hstep
                exact Option.noConfusion hstep
              | some dp =>
                cases htc : temp.ctrl.read with
                | none =>
                  simp only [hdc, hdp, htc] at hstep
                  exact Option.noConfusion hstep
                | some tc =>
                  cases htp : temp.ptr.read with
                  | none =>
                    simp only [hdc, hdp, htc, htp] at hstep
                    exact Option.noConfusion hstep
                  | some tp =>
                    simp only [hdc, hdp, htc, htp] at hstep
                    cases hrel : SharedPtr.releaseOn bs dc with
                    | none =>
                      simp only [hrel] at hstep
                      exact Option.noConfusion hstep
                    | some bs2 =>
                      simp only [hrel] at hstep
                      injection hstep with hstep
                      rw [← hstep]
                      have hid := getSP_eq_some m dst hd hgd
                      have his := getSP_eq_some m src hs hgs
                      have hI1 : MInv ⟨bs, m.sps ++ [some temp], m.wps⟩ :=
                        minv_copyCtor m src hs bs temp hI his hcc
                      have hdlt : dst < m.sps.length := getElem?_some_lt _ _ _ hid
                      have hid1 : (m.sps ++ [some temp])[dst]? = some (some hd) := by
                        rw [List.getElem?_append, if_pos hdlt]
                        exact hid
                      have hctemp := HVal.read_eq_some _ _ htc
                      have hcd := HVal.read_eq_some _ _ hdc
                      have hcnt : ∀ b, countS (m.sps.set dst (some ⟨.val tp, .val tc⟩)) b
                          + cS (some hd) b = countS (m.sps ++ [some temp]) b := by
                        intro b
                        rw [countS_append]
                        have h1 := countS_set m.sps dst (some hd)
                          (some ⟨.val tp, .val tc⟩) b hid
                        have h3 : cS (some (⟨.val tp, .val tc⟩ : SharedPtr)) b
                            = cS (some temp) b := by
                          simp [cS, hctemp]
                        show _ + _ = countS m.sps b + (cS (some temp) b + 0)
                        omega
                      exact minv_strong_release ⟨bs, m.sps ++ [some temp], m.wps⟩ dst hd dc
                        bs2 (m.sps.set dst (some ⟨.val tp, .val tc⟩)) hI1 hid1 hcd hrel hcnt
  | massignSP dst src =>
    simp only [Machine.step] at hstep
    cases hgd : m.getSP dst with
    | none =>
      simp only [hgd] at hstep
      exact Option.noConfusion hstep
    | some hd =>
      cases hgs : m.getSP src with
      | none =>
        simp only [hgd, hgs] at hstep
        exact Option.noConfusion hstep
      | some hs =>
        simp only [hgd, hgs] at hstep
        by_cases he : dst = src
        · rw [if_pos he] at hstep
          injection hstep with hstep
          rw [← hstep]
          exact hI
        · rw [if_neg he] at hstep
          cases hdc : hd.ctrl.read with
          | none =>
            simp only [hdc] at hstep
            exact Option.noConfusion hstep
          | some dc =>
            simp only [hdc] at hstep
            cases hrel : SharedPtr.releaseOn m.blocks dc with
            | none =>
              simp only [hrel] at hstep
              exact Option.noConfusion hstep
            | some bs =>
              simp only [hrel] at hstep
              cases hcr : hs.ctrl.read with
              | none =>
                simp only [hcr] at hstep
                exact Option.noConfusion hstep
              | some c =>
                cases hpr : hs.ptr.read with
                | none =>
                  simp only [hcr, hpr] at hstep
                  exact Option.noConfusion hstep
                | some p =>
                  simp only [hcr, hpr] at hstep
                  injection hstep with hstep
                  rw [← hstep]
                  have hid := getSP_eq_some m dst hd hgd
                  have his := getSP_eq_some m src hs hgs
                  have hcs := HVal.read_eq_some _ _ hcr
                  have hcd := HVal.read_eq_some _ _ hdc
                  have hsetne : (m.sps.set dst (some ⟨.val p, .val c⟩))[src]?
                      = some (some hs) := by
                    rw [List.getElem?_set, if_neg he]
                    exact his
                  have hcnt : ∀ b,
                      countS ((m.sps.set dst (some ⟨.val p, .val c⟩)).set src
                        (some emptySP)) b + cS (some hd) b = countS m.sps b := by
                    intro b
                    have h1 := countS_set m.sps dst (some hd) (some ⟨.val p, .val c⟩) b hid
                    have h2 := countS_set (m.sps.set dst (some ⟨.val p, .val c⟩)) src
                      (some hs) (some emptySP) b hsetne
                    have h3 : cS (some (⟨.val p, .val c⟩ : SharedPtr)) b
                        = cS (some hs) b := by
                      simp [cS, hcs]
                    have h4 : cS (some emptySP) b = 0 := by simp [cS, emptySP]
                    omega
                  exact minv_strong_release m dst hd dc bs _ hI hid hcd hrel hcnt
  | nullSP i =>
    simp only [Machine.step] at hstep
    cases hg : m.getSP i with
    | none =>
      simp only [hg] at hstep
      exact Option.noConfusion hstep
    | some h =>
      simp only [hg] at hstep
      cases hcr : h.ctrl.read with
      | none =>
        simp only [hcr] at hstep
        exact Option.noConfusion hstep
      | some c =>
        simp only [hcr] at hstep
        cases hrel : SharedPtr.releaseOn m.blocks c with
        | none =>
          simp only [hrel] at hstep
          exact Option.noConfusion hstep
        | some bs =>
          simp only [hrel] at hstep
          injection hstep with hstep
          rw [← hstep]
          have hi := getSP_eq_some m i h hg
          have hc := HVal.read_eq_some _ _ hcr
          have hcnt : ∀ b, countS (m.sps.set i (some emptySP)) b + cS (some h) b
              = countS m.sps b := by
            intro b
            have h1 := countS_set m.sps i (some h) (some emptySP) b hi
            have h2 : cS (some emptySP) b = 0 := by simp [cS, emptySP]
            omega
          exact minv_strong_release m i h c bs _ hI hi hc hrel hcnt
  | dropSP i =>
    simp only [Machine.step] at hstep
    cases hg : m.getSP i with
    | none =>
      simp only [hg] at hstep
      exact Option.noConfusion hstep
    | some h =>
      simp only [hg] at hstep
      cases hcr : h.ctrl.read with
      | none =>
        simp only [hcr] at hstep
        exact Option.noConfusion hstep
      | some c =>
        simp only [hcr] at hstep
        cases hrel : SharedPtr.releaseOn m.blocks c with
        | none =>
          simp only [hrel] at hstep
          exact Option.noConfusion hstep
        | some bs =>
          simp only [hrel] at hstep
          injection hstep with hstep
          rw [← hstep]
          have hi := getSP_eq_some m i h hg
          have hc := HVal.read_eq_some _ _ hcr
          have hcnt : ∀ b, countS (m.sps.set i none) b + cS (some h) b
              = countS m.sps b := by
            intro b
            have h1 := countS_set m.sps i (some h) none b hi
            have h2 : cS (none : Option SharedPtr) b = 0 := rfl
            omega
          exact minv_strong_release m i h c bs _ hI hi hc hrel hcnt
  | newWP src =>
    simp only [Machine.step] at hstep
    cases hg : m.getSP src with
    | none =>
      simp only [hg] at hstep
      exact Option.noConfusion hstep
    | some h =>
      simp only [hg] at hstep
      cases hcc : WeakPtr.fromShared m.blocks h with
      | none =>
        simp only [hcc] at hstep
        exact Option.noConfusion hstep
      | some pr =>
        obtain ⟨bs, w2⟩ := pr
        simp only [hcc] at hstep
        injection hstep with hstep
        rw [← hstep]
        exact minv_fromShared m h bs w2 hI hcc
  | copyWP src =>
    simp only [Machine.step] at hstep
    cases hg : m.getWP src with
    | none =>
      simp only [hg] at hstep
      exact Option.noConfusion hstep
    | some w =>
      simp only [hg] at hstep
      cases hcc : WeakPtr.copyCtor m.blocks w with
      | none =>
        simp only [hcc] at hstep
        exact Option.noConfusion hstep
      | some pr =>
        obtain ⟨bs, w2⟩ := pr
        simp only [hcc] at hstep
        injection hstep with hstep
        rw [← hstep]
        exact minv_copyCtorWP m w bs w2 hI hcc
  | moveWP src =>
    simp only [Machine.step] at hstep
    cases hg : m.getWP src with
    | none =>
      simp only [hg] at hstep
      exact Option.noConfusion hstep
    | some w =>
      simp only [hg] at hstep
      cases hctrl : w.ctrl with
      | indet =>
        simp only [hctrl] at hstep
        exact Option.noConfusion hstep
      | val c =>
        cases c with
        | none =>
          simp only [hctrl] at hstep
          injection hstep with hstep
          rw [← hstep]
          exact minv_append_wp m emptyWP hI (fun b => by simp [cW, emptyWP])
        | some b0 =>
          simp only [hctrl] at hstep
          cases hpr : w.ptr.read with
          | none =>
            simp only [hpr] at hstep
            exact Option.noConfusion hstep
          | some p =>
            simp only [hpr] at hstep
            injection hstep with hstep
            rw [← hstep]
            have hi := getWP_eq_some m src w hg
            have hcnt : ∀ b,
                countW ((m.wps.set src (some emptyWP)) ++ [some ⟨.val (some b0), .val p⟩]) b
                  = countW m.wps b := by
              intro b
              rw [countW_append]
              have h1 := countW_set m.wps src (some w) (some emptyWP) b hi
              have h2 : cW (some emptyWP) b = 0 := by simp [cW, emptyWP]
              have h3 : cW (some (⟨.val (some b0), .val p⟩ : WeakPtr)) b
                  = cW (some w) b := by
                simp [cW, hctrl]
              show countW (m.wps.set src (some emptyWP)) b +
                (cW (some ⟨.val (some b0), .val p⟩) b + 0) = _
              omega
            exact minv_congr _ _ _ m hI rfl (fun b => rfl) hcnt
  | nullWP i =>
    simp only [Machine.step] at hstep
    cases hg : m.getWP i with
    | none =>
      simp only [hg] at hstep
      exact Option.noConfusion hstep
    | some w =>
      simp only [hg] at hstep
      cases hcr : w.ctrl.read with
      | none =>
        simp only [hcr] at hstep
        exact Option.noConfusion hstep
      | some c =>
        simp only [hcr] at hstep
        cases hrel : WeakPtr.releaseOn m.blocks c with
        | none =>
          simp only [hrel] at hstep
          exact Option.noConfusion hstep
        | some bs =>
          simp only [hrel] at hstep
          injection hstep with hstep
          rw [← hstep]
          have hi := getWP_eq_some m i w hg
          have hc := HVal.read_eq_some _ _ hcr
          have hcnt : ∀ b, countW (m.wps.set i (some emptyWP)) b + cW (some w) b
              = countW m.wps b := by
            intro b
            have h1 := countW_set m.wps i (some w) (some emptyWP) b hi
            have h2 : cW (some emptyWP) b = 0 := by simp [cW, emptyWP]
            omega
          exact minv_weak_release m i w c bs _ hI hi hc hrel hcnt
  | dropWP i =>
    simp only [Machine.step] at hstep
    cases hg : m.getWP i with
    | none =>
      simp only [hg] at hstep
      exact Option.noConfusion hstep
    | some w =>
      simp only [hg] at hstep
      cases hcr : w.ctrl.read with
      | none =>
        simp only [hcr] at hstep
        exact Option.noConfusion hstep
      | some c =>
        simp only [hcr] at hstep
        cases hrel : WeakPtr.releaseOn m.blocks c with
        | none =>
          simp only [hrel] at hstep
          exact Option.noConfusion hstep
        | some bs =>
          simp only [hrel] at hstep
          injection hstep with hstep
          rw [← hstep]
          have hi := getWP_eq_some m i w hg
          have hc := HVal.read_eq_some _ _ hcr
          have hcnt : ∀ b, countW (m.wps.set i none) b + cW (some w) b
              = countW m.wps b := by
            intro b
            have h1 := countW_set m.wps i (some w) none b hi
            have h2 : cW (none : Option WeakPtr) b = 0 := rfl
            omega
          exact minv_weak_release m i w c bs _ hI hi hc hrel hcnt
  | lockWP src =>
    simp only [Machine.step] at hstep
    cases hg : m.getWP src with
    | none =>
      simp only [hg] at hstep
      exact Option.noConfusion hstep
    | some w =>
      simp only [hg] at hstep
      cases hl : WeakPtr.lockOn m.blocks w with
      | none =>
        simp only [hl] at hstep
        exact Option.noConfusion hstep
      | some pr =>
        obtain ⟨bs, h2⟩ := pr
        simp only [hl] at hstep
        injection hstep with hstep
        rw [← hstep]
        exact minv_lockOn m w bs h2 hI hl

theorem minv0 : MInv machine0 := by
  constructor
  · intro b s hbs
    simp [machine0] at hbs
  · intro b _
    exact ⟨rfl, rfl⟩

theorem runFrom_minv (ops : List Op) (m m2 : Machine) (hI : MInv m)
    (hrun : m.runFrom ops = some m2) : MInv m2 := by
  induction ops generalizing m with
  | nil =>
    simp only [Machine.runFrom] at hrun
    injection hrun with hrun
    rw [← hrun]
    exact hI
  | cons op ops ih =>
    simp only [Machine.runFrom] at hrun
    cases hs : m.step op with
    | none =>
      rw [hs] at hrun
      exact Option.noConfusion hrun
    | some m1 =>
      rw [hs] at hrun
      exact ih m1 (step_minv m op m1 hI hs) hrun

theorem run_minv (ops : List Op) (m : Machine) (hrun : run ops = some m) : MInv m :=
  runFrom_minv ops machine0 m minv0 hrun

theorem spReleaseOn_length (blocks bs : List Slot) (c : Option Nat)
    (h : SharedPtr.releaseOn blocks c = some bs) : bs.length = blocks.length := by
  rcases c with _ | b0
  · simp only [SharedPtr.releaseOn] at h
    injection h with h
    rw [← h]
  · cases hb : blocks[b0]? with
    | none =>
      simp only [SharedPtr.releaseOn, hb] at h
      exact Option.noConfusion h
    | some s0 =>
      cases hblk : s0.blk with
      | none =>
        simp only [SharedPtr.releaseOn, hb, hblk] at h
        exact Option.noConfusion h
      | some cb =>
        simp only [SharedPtr.releaseOn, hb, hblk] at h
        split_ifs at h with h1 h2 <;>
          (injection h with h; rw [← h, List.length_set])

theorem wpReleaseOn_length (blocks bs : List Slot) (c : Option Nat)
    (h : WeakPtr.releaseOn blocks c = some bs) : bs.length = blocks.length := by
  rcases c with _ | b0
  · simp only [WeakPtr.releaseOn] at h
    injection h with h
    rw [← h]
  · cases hb : blocks[b0]? with
    | none =>
      simp only [WeakPtr.releaseOn, hb] at h
      exact Option.noConfusion h
    | some s0 =>
      cases hblk : s0.blk with
      | none =>
        simp only [WeakPtr.releaseOn, hb, hblk] at h
        exact Option.noConfusion h
      | some cb =>
        simp only [WeakPtr.releaseOn, hb, hblk] at h
        split_ifs at h with h1 h2 <;>
          (injection h with h; rw [← h, List.length_set])

theorem copyCtorSP_length (blocks bs : List Slot) (other : SharedPtr) (h2 : SharedPtr)
    (h : SharedPtr.copyCtor blocks other = some (bs, h2)) : bs.length = blocks.length := by
  cases hctrl : other.ctrl with
  | indet =>
    simp only [SharedPtr.copyCtor, hctrl] at h
    exact Option.noConfusion h
  | val c =>
    cases c with
    | none =>
      simp only [SharedPtr.copyCtor, hctrl] at h
      injection h with h
      injection h with hbs _
      rw [← hbs]
    | some b0 =>
      cases hb : blocks[b0]? with
      | none =>
        simp only [SharedPtr.copyCtor, hctrl, hb] at h
        exact Option.noConfusion h
      | some s0 =>
        cases hblk : s0.blk with
        | none =>
          simp only [SharedPtr.copyCtor, hctrl, hb, hblk] at h
          exact Option.noConfusion h
        | some cb =>
          cases hp : other.ptr with
          | indet =>
            simp only [SharedPtr.copyCtor, hctrl, hb, hblk, hp] at h
            exact Option.noConfusion h
          | val p =>
            simp only [SharedPtr.copyCtor, hctrl, hb, hblk, hp] at h
            injection h with h
            injection h with hbs _
            rw [← hbs, List.length_set]

theorem fromShared_length (blocks bs : List Slot) (sp : SharedPtr) (w2 : WeakPtr)
    (h : WeakPtr.fromShared blocks sp = some (bs, w2)) : bs.length = blocks.length := by
  cases hctrl : sp.ctrl with
  | indet =>
    simp only [WeakPtr.fromShared, hctrl] at h
    exact Option.noConfusion h
  | val c =>
    cases c with
    | none =>
      simp only [WeakPtr.fromShared, hctrl] at h
      injection h with h
      injection h with hbs _
      rw [← hbs]
    | some b0 =>
      cases hb : blocks[b0]? with
      | none =>
        simp only [WeakPtr.fromShared, hctrl, hb] at h
        exact Option.noConfusion h
      | some s0 =>
        cases hblk : s0.blk with
        | none =>
          simp only [WeakPtr.fromShared, hctrl, hb, hblk] at h
          exact Option.noConfusion h
        | some cb =>
          cases hp : sp.ptr with
          | indet =>
            simp only [WeakPtr.fromShared, hctrl, hb, hblk, hp] at h
            exact Option.noConfusion h
          | val p =>
            simp only [WeakPtr.fromShared, hctrl, hb, hblk, hp] at h
            injection h with h
            injection h with hbs _
            rw [← hbs, List.length_set]

theorem copyCtorWP_length (blocks bs : List Slot) (other : WeakPtr) (w2 : WeakPtr)
    (h : WeakPtr.copyCtor blocks other = some (bs, w2)) : bs.length = blocks.length := by
  cases hctrl : other.ctrl with
  | indet =>
    simp only [WeakPtr.copyCtor, hctrl] at h
    exact Option.noConfusion h
  | val c =>
    cases c with
    | none =>
      simp only [WeakPtr.copyCtor, hctrl] at h
      injection h with h
      injection h with hbs _
      rw [← hbs]
    | some b0 =>
      cases hb : blocks[b0]? with
      | none =>
        simp only [WeakPtr.copyCtor, hctrl, hb] at h
        exact Option.noConfusion h
      | some s0 =>
        cases hblk : s0.blk with
        | none =>
          simp only [WeakPtr.copyCtor, hctrl, hb, hblk] at h
          exact Option.noConfusion h
        | some cb =>
          cases hp : other.ptr with
          | indet =>
            simp only [WeakPtr.copyCtor, hctrl, hb, hblk, hp] at h
            exact Option.noConfusion h
          | val p =>
            simp only [WeakPtr.copyCtor, hctrl, hb, hblk, hp] at h
            injection h with h
            injection h with hbs _
            rw [← hbs, List.length_set]

theorem lockOn_length (blocks bs : List Slot) (w : WeakPtr) (h2 : SharedPtr)
    (h : WeakPtr.lockOn blocks w = some (bs, h2)) : bs.length = blocks.length := by
  cases hctrl : w.ctrl with
  | indet =>
    simp only [WeakPtr.lockOn, hctrl] at h
    exact Option.noConfusion h
  | val c =>
    cases c with
    | none =>
      simp only [WeakPtr.lockOn, hctrl] at h
      injection h with h
      injection h with hbs _
      rw [← hbs]
    | some b0 =>
      cases hb : blocks[b0]? with
      | none =>
        simp only [WeakPtr.lockOn, hctrl, hb] at h
        exact Option.noConfusion h
      | some s0 =>
        cases hblk : s0.blk with
        | none =>
          simp only [WeakPtr.lockOn, hctrl, hb, hblk] at h
          exact Option.noConfusion h
        | some cb =>
          by_cases hr : cb.ref_cnt = 0
          · simp only [WeakPtr.lockOn, hctrl, hb, hblk, if_pos hr] at h
            injection h with h
            injection h with hbs _
            rw [← hbs]
          · cases hp : w.ptr with
            | indet =>
              simp only [WeakPtr.lockOn, hctrl, hb, hblk, if_neg hr, hp] at h
              exact Option.noConfusion h
            | val p =>
              simp only [WeakPtr.lockOn, hctrl, hb, hblk, if_neg hr, hp] at h
              injection h with h
              injection h with hbs _
              rw [← hbs, List.length_set]

theorem cS_eq_zero_of_ne (h2 : SharedPtr) (b0 b : Nat) (hc : h2.ctrl = .val (some b0))
    (hne : b0 ≠ b) : cS (some h2) b = 0 := by
  have hne2 : ¬ (HVal.val (α := Option Nat) (some b0) = HVal.val (some b)) := by
    simpa using hne
  simp only [cS, hc, if_neg hne2]

theorem cS_eq_one (h2 : SharedPtr) (b0 : Nat) (hc : h2.ctrl = .val (some b0)) :
    cS (some h2) b0 = 1 := by
  simp [cS, hc]

/-- What `SharedPtr`'s copy constructor can produce for the new `ctrl`. -/
theorem copyCtorSP_ctrl (blocks bs : List Slot) (other h2 : SharedPtr)
    (h : SharedPtr.copyCtor blocks other = some (bs, h2)) :
    h2.ctrl = .indet ∨ ∃ b0, other.ctrl = .val (some b0) ∧ h2.ctrl = .val (some b0) := by
  cases hctrl : other.ctrl with
  | indet =>
    simp only [SharedPtr.copyCtor, hctrl] at h
    exact Option.noConfusion h
  | val c =>
    cases c with
    | none =>
      simp only [SharedPtr.copyCtor, hctrl] at h
      injection h with h
      injection h with _ hh2
      left
      rw [← hh2]
    | some b0 =>
      cases hb : blocks[b0]? with
      | none =>
        simp only [SharedPtr.copyCtor, hctrl, hb] at h
        exact Option.noConfusion h
      | some s0 =>
        cases hblk : s0.blk with
        | none =>
          simp only [SharedPtr.copyCtor, hctrl, hb, hblk] at h
          exact Option.noConfusion h
        | some cb =>
          cases hp : other.ptr with
          | indet =>
            simp only [SharedPtr.copyCtor, hctrl, hb, hblk, hp] at h
            exact Option.noConfusion h
          | val p =>
            simp only [SharedPtr.copyCtor, hctrl, hb, hblk, hp] at h
            injection h with h
            injection h with _ hh2
            right
            exact ⟨b0, rfl, by rw [← hh2]⟩

/-- Full case shape of `WeakPtr::lock()`: either the empty handle with an
untouched heap (null `ctrl`, or strong count observed at 0), or a successful
single CAS increment wrapping the cached pointer and block. -/
theorem lockOn_shape (blocks bs : List Slot) (w : WeakPtr) (h2 : SharedPtr)
    (h : WeakPtr.lockOn blocks w = some (bs, h2)) :
    (h2 = emptySP ∧ bs = blocks ∧
      (w.ctrl = .val none ∨ ∃ b0 s0 cb, w.ctrl = .val (some b0) ∧
        blocks[b0]? = some s0 ∧ s0.blk = some cb ∧ cb.ref_cnt = 0)) ∨
    (∃ b0 s0 cb p, w.ctrl = .val (some b0) ∧ blocks[b0]? = some s0 ∧ s0.blk = some cb ∧
      cb.ref_cnt ≠ 0 ∧ w.ptr = .val p ∧
      bs = blocks.set b0 ⟨some { cb with ref_cnt := cb.ref_cnt + 1 }, s0.fins, s0.zt⟩ ∧
      h2 = ⟨.val p, .val (some b0)⟩) := by
  cases hctrl : w.ctrl with
  | indet =>
    simp only [WeakPtr.lockOn, hctrl] at h
    exact Option.noConfusion h
  | val c =>
    cases c with
    | none =>
      simp only [WeakPtr.lockOn, hctrl] at h
      injection h with h
      injection h with hbs hh2
      exact Or.inl ⟨hh2.symm, hbs.symm, Or.inl rfl⟩
    | some b0 =>
      cases hb : blocks[b0]? with
      | none =>
        simp only [WeakPtr.lockOn, hctrl, hb] at h
        exact Option.noConfusion h
      | some s0 =>
        cases hblk : s0.blk with
        | none =>
          simp only [WeakPtr.lockOn, hctrl, hb, hblk] at h
          exact Option.noConfusion h
        | some cb =>
          by_cases hr : cb.ref_cnt = 0
          · simp only [WeakPtr.lockOn, hctrl, hb, hblk, if_pos hr] at h
            injection h with h
            injection h with hbs hh2
            exact Or.inl ⟨hh2.symm, hbs.symm, Or.inr ⟨b0, s0, cb, rfl, hb, hblk, hr⟩⟩
          · cases hp : w.ptr with
            | indet =>
              simp only [WeakPtr.lockOn, hctrl, hb, hblk, if_neg hr, hp] at h
              exact Option.noConfusion h
            | val p =>
              simp only [WeakPtr.lockOn, hctrl, hb, hblk, if_neg hr, hp] at h
              injection h with h
              injection h with hbs hh2
              exact Or.inr ⟨b0, s0, cb, p, rfl, hb, hblk, hr, rfl, hbs.symm, hh2.symm⟩

/-- Once every strong handle to an allocated block is gone, no defined step
can ever recreate one: block ids never die and their strong handle count
stays at zero.  (A copy needs a surviving strong handle, and `lock()` refuses
to upgrade once the strong count has been observed at 0.) -/
theorem step_expired (m : Machine) (op : Op) (m2 : Machine) (b : Nat)
    (hI : MInv m) (hstep : m.step op = some m2)
    (hlt : b < m.blocks.length) (hz : countS m.sps b = 0) :
    b < m2.blocks.length ∧ countS m2.sps b = 0 := by
  cases op with
  | newSP r =>
    simp only [Machine.step] at hstep
    injection hstep with hstep
    rw [← hstep]
    constructor
    · show b < (m.blocks ++ ([⟨some ⟨1, 0, r⟩, [], 0⟩] : List Slot)).length
      rw [List.length_append]
      omega
    · show countS (m.sps ++ [some ⟨.val r, .val (some m.blocks.length)⟩]) b = 0
      rw [countS_append]
      have h0 : cS (some (⟨.val r, .val (some m.blocks.length)⟩ : SharedPtr)) b = 0 :=
        cS_eq_zero_of_ne _ _ _ rfl (by omega)
      show countS m.sps b + (cS (some ⟨.val r, .val (some m.blocks.length)⟩) b + 0) = 0
      omega
  | copySP src =>
    simp only [Machine.step] at hstep
    cases hg : m.getSP src with
    | none =>
      simp only [hg] at hstep
      exact Option.noConfusion hstep
    | some h =>
      simp only [hg] at hstep
      cases hcc : SharedPtr.copyCtor m.blocks h with
      | none =>
        simp only [hcc] at hstep
        exact Option.noConfusion hstep
      | some pr =>
        obtain ⟨bs, h2⟩ := pr
        simp only [hcc] at hstep
        injection hstep with hstep
        rw [← hstep]
        have hlen := copyCtorSP_length m.blocks bs h h2 hcc
        have hi := getSP_eq_some m src h hg
        have h2z : cS (some h2) b = 0 := by
          rcases copyCtorSP_ctrl m.blocks bs h h2 hcc with hind | ⟨b0, hoc, h2c⟩
          · simp [cS, hind]
          · by_cases e : b0 = b
            · subst e
              have h1 := cS_le_countS m.sps src (some h) b0 hi
              rw [cS_eq_one h b0 hoc] at h1
              omega
            · exact cS_eq_zero_of_ne h2 b0 b h2c e
        constructor
        · show b < bs.length
          omega
        · show countS (m.sps ++ [some h2]) b = 0
          rw [countS_append]
          show countS m.sps b + (cS (some h2) b + 0) = 0
          omega
  | moveSP src =>
    simp only [Machine.step] at hstep
    cases hg : m.getSP src with
    | none =>
      simp only [hg] at hstep
      exact Option.noConfusion hstep
    | some h =>
      simp only [hg] at hstep
      cases hcr : h.ctrl.read with
      | none =>
        simp only [hcr] at hstep
        exact Option.noConfusion hstep
      | some c =>
        cases hpr : h.ptr.read with
        | none =>
          simp only [hcr, hpr] at hstep
          exact Option.noConfusion hstep
        | some p =>
          simp only [hcr, hpr] at hstep
          injection hstep with hstep
          rw [← hstep]
          refine ⟨hlt, ?_⟩
          have hi := getSP_eq_some m src h hg
          have hc := HVal.read_eq_some _ _ hcr
          show countS ((m.sps.set src (some emptySP)) ++ [some ⟨.val p, .val c⟩]) b = 0
          rw [countS_append]
          have h1 := countS_set m.sps src (some h) (some emptySP) b hi
          have h2 : cS (some emptySP) b = 0 := by simp [cS, emptySP]
          have h3 : cS (some (⟨.val p, .val c⟩ : SharedPtr)) b = cS (some h) b := by
            simp [cS, hc]
          show countS (m.sps.set src (some emptySP)) b +
            (cS (some ⟨.val p, .val c⟩) b + 0) = 0
          omega
  | assignSP dst src =>
    simp only [Machine.step] at hstep
    cases hgd : m.getSP dst with
    | none =>
      simp only [hgd] at hstep
      exact Option.noConfusion hstep
    | some hd =>
      cases hgs : m.getSP src with
      | none =>
        simp only [hgd, hgs] at hstep
        exact Option.noConfusion hstep
      | some hs =>
        simp only [hgd, hgs] at hstep
        by_cases he : dst = src
        · rw [if_pos he] at hstep
          injection hstep with hstep
          rw [← hstep]
          exact ⟨hlt, hz⟩
        · rw [if_neg he] at hstep
          cases hcc : SharedPtr.copyCtor m.blocks hs with
          | none =>
            simp only [hcc] at hstep
            exact Option.noConfusion hstep
          | some pr =>
            obtain ⟨bs, temp⟩ := pr
            simp only [hcc] at hstep
            cases hdc : hd.ctrl.read with
            | none =>
              simp only [hdc] at hstep
              exact Option.noConfusion hstep
            | some dc =>
              cases hdp : hd.ptr.read with
              | none =>
                simp only [hdc, hdp] at hstep
                exact Option.noConfusion hstep
              | some dp =>
                cases htc : temp.ctrl.read with
                | none =>
                  simp only [hdc, hdp, htc] at hstep
                  exact Option.noConfusion hstep
                | some tc =>
                  cases htp : temp.ptr.read with
                  | none =>
                    simp only [hdc, hdp, htc, htp] at hstep
                    exact Option.noConfusion hstep
                  | some tp =>
                    simp only [hdc, hdp, htc, htp] at hstep
                    cases hrel : SharedPtr.releaseOn bs dc with
                    | none =>
                      simp only [hrel] at hstep
                      exact Option.noConfusion hstep
                    | some bs2 =>
                      simp only [hrel] at hstep
                      injection hstep with hstep
                      rw [← hstep]
                      have hlen1 := copyCtorSP_length m.blocks bs hs temp hcc
                      have hlen2 := spReleaseOn_length bs bs2 dc hrel
                      have hid := getSP_eq_some m dst hd hgd
                      have his := getSP_eq_some m src hs hgs
                      have hctemp := HVal.read_eq_some _ _ htc
                      have htcz : cS (some (⟨.val tp, .val tc⟩ : SharedPtr)) b = 0 := by
                        rcases copyCtorSP_ctrl m.blocks bs hs temp hcc with hind | ⟨b0, hoc, h2c⟩
                        · rw [hind] at hctemp
                          exact HVal.noConfusion hctemp
                        · rw [h2c] at hctemp
                          injection hctemp with hctemp
                          by_cases e : b0 = b
                          · subst e
                            have h1 := cS_le_countS m.sps src (some hs) b0 his
                            rw [cS_eq_one hs b0 hoc] at h1
                            omega
                          · refine cS_eq_zero_of_ne _ b0 b ?_ e
                            show HVal.val tc = HVal.val (some b0)
                            rw [hctemp]
                      constructor
                      · show b < bs2.length
                        omega
                      · show countS (m.sps.set dst (some ⟨.val tp, .val tc⟩)) b = 0
                        have h1 := countS_set m.sps dst (some hd)
                          (some ⟨.val tp, .val tc⟩) b hid
                        omega
  | massignSP dst src =>
    simp only [Machine.step] at hstep
    cases hgd : m.getSP dst with
    | none =>
      simp only [hgd] at hstep
      exact Option.noConfusion hstep
    | some hd =>
      cases hgs : m.getSP src with
      | none =>
        simp only [hgd, hgs] at hstep
        exact Option.noConfusion hstep
      | some hs =>
        simp only [hgd, hgs] at hstep
        by_cases he : dst = src
        · rw [if_pos he] at hstep
          injection hstep with hstep
          rw [← hstep]
          exact ⟨hlt, hz⟩
        · rw [if_neg he] at hstep
          cases hdc : hd.ctrl.read with
          | none =>
            simp only [hdc] at hstep
            exact Option.noConfusion hstep
          | some dc =>
            simp only [hdc] at hstep
            cases hrel : SharedPtr.releaseOn m.blocks dc with
            | none =>
              simp only [hrel] at hstep
              exact Option.noConfusion hstep
            | some bs =>
              simp only [hrel] at hstep
              cases hcr : hs.ctrl.read with
              | none =>
                simp only [hcr] at hstep
                exact Option.noConfusion hstep
              | some c =>
                cases hpr : hs.ptr.read with
                | none =>
                  simp only [hcr, hpr] at hstep
                  exact Option.noConfusion hstep
                | some p =>
                  simp only [hcr, hpr] at hstep
                  injection hstep with hstep
                  rw [← hstep]
                  have hlen := spReleaseOn_length m.blocks bs dc hrel
                  have hid := getSP_eq_some m dst hd hgd
                  have his := getSP_eq_some m src hs hgs
                  have hcs := HVal.read_eq_some _ _ hcr
                  have hsetne : (m.sps.set dst (some ⟨.val p, .val c⟩))[src]?
                      = some (some hs) := by
                    rw [List.getElem?_set, if_neg he]
                    exact his
                  refine ⟨?_, ?_⟩
                  · show b < bs.length
                    omega
                  show countS ((m.sps.set dst (some ⟨.val p, .val c⟩)).set src
                    (some emptySP)) b = 0
                  have h1 := countS_set m.sps dst (some hd) (some ⟨.val p, .val c⟩) b hid
                  have h2 := countS_set (m.sps.set dst (some ⟨.val p, .val c⟩)) src
                    (some hs) (some emptySP) b hsetne
                  have h3 : cS (some (⟨.val p, .val c⟩ : SharedPtr)) b
                      = cS (some hs) b := by
                    simp [cS, hcs]
                  have h4 : cS (some emptySP) b = 0 := by simp [cS, emptySP]
                  have h5 := cS_le_countS m.sps src (some hs) b his
                  omega
  | nullSP i =>
    simp only [Machine.step] at hstep
    cases hg : m.getSP i with
    | none =>
      simp only [hg] at hstep
      exact Option.noConfusion hstep
    | some h =>
      simp only [hg] at hstep
      cases hcr : h.ctrl.read with
      | none =>
        simp only [hcr] at hstep
        exact Option.noConfusion hstep
      | some c =>
        simp only [hcr] at hstep
        cases hrel : SharedPtr.releaseOn m.blocks c with
        | none =>
          simp only [hrel] at hstep
          exact Option.noConfusion hstep
        | some bs =>
          simp only [hrel] at hstep
          injection hstep with hstep
          rw [← hstep]
          have hlen := spReleaseOn_length m.blocks bs c hrel
          have hi := getSP_eq_some m i h hg
          refine ⟨?_, ?_⟩
          · show b < bs.length
            omega
          show countS (m.sps.set i (some emptySP)) b = 0
          have h1 := countS_set m.sps i (some h) (some emptySP) b hi
          have h2 : cS (some emptySP) b = 0 := by simp [cS, emptySP]
          omega
  | dropSP i =>
    simp only [Machine.step] at hstep
    cases hg : m.getSP i with
    | none =>
      simp only [hg] at hstep
      exact Option.noConfusion hstep
    | some h =>
      simp only [hg] at hstep
      cases hcr : h.ctrl.read with
      | none =>
        simp only [hcr] at hstep
        exact Option.noConfusion hstep
      | some c =>
        simp only [hcr] at hstep
        cases hrel : SharedPtr.releaseOn m.blocks c with
        | none =>
          simp only [hrel] at hstep
          exact Option.noConfusion hstep
        | some bs =>
          simp only [hrel] at hstep
          injection hstep with hstep
          rw [← hstep]
          have hlen := spReleaseOn_length m.blocks bs c hrel
          have hi := getSP_eq_some m i h hg
          refine ⟨?_, ?_⟩
          · show b < bs.length
            omega
          show countS (m.sps.set i none) b = 0
          have h1 := countS_set m.sps i (some h) none b hi
          have h2 : cS (none : Option SharedPtr) b = 0 := rfl
          omega
  | newWP src =>
    simp only [Machine.step] at hstep
    cases hg : m.getSP src with
    | none =>
      simp only [hg] at hstep
      exact Option.noConfusion hstep
    | some h =>
      simp only [hg] at hstep
      cases hcc : WeakPtr.fromShared m.blocks h with
      | none =>
        simp only [hcc] at hstep
        exact Option.noConfusion hstep
      | some pr =>
        obtain ⟨bs, w2⟩ := pr
        simp only [hcc] at hstep
        injection hstep with hstep
        rw [← hstep]
        have hlen := fromShared_length m.blocks bs h w2 hcc
        refine ⟨?_, hz⟩
        show b < bs.length
        omega
  | copyWP src =>
    simp only [Machine.step] at hstep
    cases hg : m.getWP src with
    | none =>
      simp only [hg] at hstep
      exact Option.noConfusion hstep
    | some w =>
      simp only [hg] at hstep
      cases hcc : WeakPtr.copyCtor m.blocks w with
      | none =>
        simp only [hcc] at hstep
        exact Option.noConfusion hstep
      | some pr =>
        obtain ⟨bs, w2⟩ := pr
        simp only [hcc] at hstep
        injection hstep with hstep
        rw [← hstep]
        have hlen := copyCtorWP_length m.blocks bs w w2 hcc
        refine ⟨?_, hz⟩
        show b < bs.length
        omega
  | moveWP src =>
    simp only [Machine.step] at hstep
    cases hg : m.getWP src with
    | none =>
      simp only [hg] at hstep
      exact Option.noConfusion hstep
    | some w =>
      simp only [hg] at hstep
      cases hctrl : w.ctrl with
      | indet =>
        simp only [hctrl] at hstep
        exact Option.noConfusion hstep
      | val c =>
        cases c with
        | none =>
          simp only [hctrl] at hstep
          injection hstep with hstep
          rw [← hstep]
          exact ⟨hlt, hz⟩
        | some b0 =>
          simp only [hctrl] at hstep
          cases hpr : w.ptr.read with
          | none =>
            simp only [hpr] at hstep
            exact Option.noConfusion hstep
          | some p =>
            simp only [hpr] at hstep
            injection hstep with hstep
            rw [← hstep]
            exact ⟨hlt, hz⟩
  | nullWP i =>
    simp only [Machine.step] at hstep
    cases hg : m.getWP i with
    | none =>
      simp only [hg] at hstep
      exact Option.noConfusion hstep
    | some w =>
      simp only [hg] at hstep
      cases hcr : w.ctrl.read with
      | none =>
        simp only [hcr] at hstep
        exact Option.noConfusion hstep
      | some c =>
        simp only [hcr] at hstep
        cases hrel : WeakPtr.releaseOn m.blocks c with
        | none =>
          simp only [hrel] at hstep
          exact Option.noConfusion hstep
        | some bs =>
          simp only [hrel] at hstep
          injection hstep with hstep
          rw [← hstep]
          have hlen := wpReleaseOn_length m.blocks bs c hrel
          refine ⟨?_, hz⟩
          show b < bs.length
          omega
  | dropWP i =>
    simp only [Machine.step] at hstep
    cases hg : m.getWP i with
    | none =>
      simp only [hg] at hstep
      exact Option.noConfusion hstep
    | some w =>
      simp only [hg] at hstep
      cases hcr : w.ctrl.read with
      | none =>
        simp only [hcr] at hstep
        exact Option.noConfusion hstep
      | some c =>
        simp only [hcr] at hstep
        cases hrel : WeakPtr.releaseOn m.blocks c with
        | none =>
          simp only [hrel] at hstep
          exact Option.noConfusion hstep
        | some bs =>
          simp only [hrel] at hstep
          injection hstep with hstep
          rw [← hstep]
          have hlen := wpReleaseOn_length m.blocks bs c hrel
          refine ⟨?_, hz⟩
          show b < bs.length
          omega
  | lockWP src =>
    simp only [Machine.step] at hstep
    cases hg : m.getWP src with
    | none =>
      simp only [hg] at hstep
      exact Option.noConfusion hstep
    | some w =>
      simp only [hg] at hstep
      cases hl : WeakPtr.lockOn m.blocks w with
      | none =>
        simp only [hl] at hstep
        exact Option.noConfusion hstep
      | some pr =>
        obtain ⟨bs, h2⟩ := pr
        simp only [hl] at hstep
        injection hstep with hstep
        rw [← hstep]
        have hlen := lockOn_length m.blocks bs w h2 hl
        have h2z : cS (some h2) b = 0 := by
          rcases lockOn_shape m.blocks bs w h2 hl with ⟨he2, _, _⟩ |
            ⟨b0, s0, cb, p, hwc, hb0, hblk, hr, hp, hbs, hh2⟩
          · rw [he2]
            simp [cS, emptySP]
          · by_cases e : b0 = b
            · subst e
              obtain ⟨href, _, _, _⟩ := (hI.1 b0 s0 hb0).1 cb hblk
              rw [hz] at href
              exact absurd href (by simpa using hr)
            · refine cS_eq_zero_of_ne h2 b0 b ?_ e
              rw [hh2]
        refine ⟨?_, ?_⟩
        · show b < bs.length
          omega
        show countS (m.sps ++ [some h2]) b = 0
        rw [countS_append]
        show countS m.sps b + (cS (some h2) b + 0) = 0
        omega

theorem runFrom_expired (ops : List Op) (m m2 : Machine) (b : Nat)
    (hI : MInv m) (hrun : m.runFrom ops = some m2)
    (hlt : b < m.blocks.length) (hz : countS m.sps b = 0) :
    b < m2.blocks.length ∧ countS m2.sps b = 0 := by
  induction ops generalizing m with
  | nil =>
    simp only [Machine.runFrom] at hrun
    injection hrun with hrun
    rw [← hrun]
    exact ⟨hlt, hz⟩
  | cons op ops ih =>
    simp only [Machine.runFrom] at hrun
    cases hs : m.step op with
    | none =>
      rw [hs] at hrun
      exact Option.noConfusion hrun
    | some m1 =>
      rw [hs] at hrun
      obtain ⟨hlt1, hz1⟩ := step_expired m op m1 b hI hs hlt hz
      exact ih m1 (step_minv m op m1 hI hs) hrun hlt1 hz1

theorem getSP_of (m : Machine) (i : Nat) (h : SharedPtr)
    (hh : m.sps[i]? = some (some h)) : m.getSP i = some h := by
  unfold Machine.getSP
  rw [hh]

theorem getWP_of (m : Machine) (i : Nat) (w : WeakPtr)
    (hw : m.wps[i]? = some (some w)) : m.getWP i = some w := by
  unfold Machine.getWP
  rw [hw]

/-! ## The claims -/

/-- C1.  In every defined sequence of handle operations, each control block's
strong count is moved from a nonzero value to 0 at most once (`zt ≤ 1`), and
once no live `SharedPtr` names a block any more, `delete_ptr()` (the
finalizer) has run on it exactly once — and, while the block is still
allocated, precisely with the resource pointer it stores. -/
theorem claim1_strong_zero_once_finalize_once (ops : List Op) (m : Machine) (b : Nat)
    (s : Slot) (hrun : run ops = some m) (hbs : m.blocks[b]? = some s) :
    s.zt ≤ 1 ∧ (countS m.sps b = 0 → s.fins.length = 1) ∧
      (countS m.sps b = 0 → ∀ cb, s.blk = some cb → s.fins = [cb.ptr]) := by
  have hI := run_minv ops m hrun
  have hS := hI.1 b s hbs
  cases hblk : s.blk with
  | none =>
    obtain ⟨hf, hz, _, _⟩ := hS.2 hblk
    refine ⟨by omega, fun _ => hf, fun _ cb hcb => ?_⟩
    exact Option.noConfusion hcb
  | some cb =>
    obtain ⟨href, hweak, hlive, hdead⟩ := hS.1 cb hblk
    by_cases hr : cb.ref_cnt = 0
    · obtain ⟨hf, hz1, _⟩ := hdead hr
      refine ⟨by omega, fun _ => by rw [hf]; rfl, fun _ cb2 hcb2 => ?_⟩
      injection hcb2 with hcb2
      rw [← hcb2]
      exact hf
    · obtain ⟨hf, hz0⟩ := hlive hr
      refine ⟨by omega, fun hcz => ?_, fun hcz cb2 hcb2 => ?_⟩
      · exfalso
        omega
      · exfalso
        omega

theorem claim1_witness :
    (⟨none, [some 7], 1⟩ : Slot).zt ≤ 1 ∧
      (countS mC1.sps 0 = 0 → (⟨none, [some 7], 1⟩ : Slot).fins.length = 1) ∧
      (countS mC1.sps 0 = 0 → ∀ cb, (⟨none, [some 7], 1⟩ : Slot).blk = some cb →
        (⟨none, [some 7], 1⟩ : Slot).fins = [cb.ptr]) :=
  claim1_strong_zero_once_finalize_once
    [.newSP (some 7), .copySP 0, .dropSP 1, .dropSP 0] mC1 0 ⟨none, [some 7], 1⟩
    (by decide) (by decide)

/-- C3.  (a) Along any defined continuation of a trace in which some block
still exists but no live `SharedPtr` names it (all strong handles dropped),
`lock()` on any `WeakPtr` naming that block appends the empty handle and
leaves the heap — in particular the single recorded finalizer invocation —
untouched.  (b) `WeakPtr::release()` never invokes the finalizer, and its
decrement-to-zero deallocates the block exactly when the strong count is
already 0. -/
theorem claim3_weak_outlives_strong :
    (∀ ops1 ops2 m1 m2 i w b,
      run ops1 = some m1 →
      b < m1.blocks.length → countS m1.sps b = 0 →
      m1.runFrom ops2 = some m2 →
      m2.wps[i]? = some (some w) → w.ctrl = .val (some b) →
      m2.step (.lockWP i) = some { m2 with sps := m2.sps ++ [some emptySP] } ∧
        (∀ s, m2.blocks[b]? = some s → s.fins.length = 1)) ∧
    (∀ blocks b s cb bs2 s2,
      blocks[b]? = some s → s.blk = some cb →
      WeakPtr.releaseOn blocks (some b) = some bs2 →
      bs2[b]? = some s2 →
      s2.fins = s.fins ∧ (s2.blk = none ↔ (cb.weak_cnt = 1 ∧ cb.ref_cnt = 0))) := by
  constructor
  · intro ops1 ops2 m1 m2 i w b hrun1 hlt hz hrun2 hwi hwc
    have hI1 := run_minv ops1 m1 hrun1
    obtain ⟨hlt2, hz2⟩ := runFrom_expired ops2 m1 m2 b hI1 hrun2 hlt hz
    have hI2 := runFrom_minv ops2 m1 m2 hI1 hrun2
    obtain ⟨s, hbs⟩ : ∃ s, m2.blocks[b]? = some s :=
      ⟨_, List.getElem?_eq_getElem hlt2⟩
    have hS := hI2.1 b s hbs
    have hw1 : cW (some w) b = 1 := by simp [cW, hwc]
    have hwge := cW_le_countW m2.wps i (some w) b hwi
    rw [hw1] at hwge
    cases hblk : s.blk with
    | none =>
      obtain ⟨_, _, _, hw0⟩ := hS.2 hblk
      omega
    | some cb =>
      obtain ⟨href, hweak, hlive, hdead⟩ := hS.1 cb hblk
      have hr0 : cb.ref_cnt = 0 := by omega
      obtain ⟨hf, hz1, _⟩ := hdead hr0
      have hlock : WeakPtr.lockOn m2.blocks w = some (m2.blocks, emptySP) := by
        simp only [WeakPtr.lockOn, hwc, hbs, hblk, if_pos hr0]
      constructor
      · simp only [Machine.step, getWP_of m2 i w hwi, hlock]
      · intro s2 hs2
        rw [hbs] at hs2
        injection hs2 with hs2
        rw [← hs2]
        rw [hf]
        rfl
  · intro blocks b s cb bs2 s2 hb hblk hrel hs2
    have hblt : b < blocks.length := getElem?_some_lt _ _ _ hb
    simp only [WeakPtr.releaseOn, hb, hblk] at hrel
    split_ifs at hrel with h1 h2
    · injection hrel with hrel
      rw [← hrel, List.getElem?_set, if_pos rfl, if_pos hblt] at hs2
      injection hs2 with hs2
      rw [← hs2]
      exact ⟨rfl, by simp [h1, h2]⟩
    · injection hrel with hrel
      rw [← hrel, List.getElem?_set, if_pos rfl, if_pos hblt] at hs2
      injection hs2 with hs2
      rw [← hs2]
      constructor
      · rfl
      · constructor
        · intro habs
          exact Option.noConfusion habs
        · intro ⟨_, habs⟩
          exact absurd habs h2
    · injection hrel with hrel
      rw [← hrel, List.getElem?_set, if_pos rfl, if_pos hblt] at hs2
      injection hs2 with hs2
      rw [← hs2]
      constructor
      · rfl
      · constructor
        · intro habs
          exact Option.noConfusion habs
        · intro ⟨habs, _⟩
          exact absurd habs h1

theorem claim3_witness :
    mC3.step (.lockWP 0) = some { mC3 with sps := mC3.sps ++ [some emptySP] } ∧
      sC3.fins.length = 1 ∧
      sC3f.fins = sC3.fins ∧
      (sC3f.blk = none ↔ (cbC3.weak_cnt = 1 ∧ cbC3.ref_cnt = 0)) := by
  have h1 := claim3_weak_outlives_strong.1 [.newSP (some 5), .newWP 0, .dropSP 0] [] mC3 mC3
    0 ⟨.val (some 0), .val (some 5)⟩ 0 (by decide) (by decide) (by decide) (by decide)
    (by decide) rfl
  have h2 := claim3_weak_outlives_strong.2 mC3.blocks 0 sC3 cbC3 [sC3f] sC3f
    (by decide) (by decide) (by decide) (by decide)
  exact ⟨h1.1, h1.2 sC3 (by decide), h2.1, h2.2⟩

theorem spReleaseOn_get_ne (blocks bs : List Slot) (c : Option Nat) (b : Nat)
    (h : SharedPtr.releaseOn blocks c = some bs) (hne : some b ≠ c) :
    bs[b]? = blocks[b]? := by
  rcases c with _ | b0
  · simp only [SharedPtr.releaseOn] at h
    injection h with h
    rw [← h]
  · have hbne : ¬ (b0 = b) := by
      intro e
      exact hne (by rw [e])
    cases hb : blocks[b0]? with
    | none =>
      simp only [SharedPtr.releaseOn, hb] at h
      exact Option.noConfusion h
    | some s0 =>
      cases hblk : s0.blk with
      | none =>
        simp only [SharedPtr.releaseOn, hb, hblk] at h
        exact Option.noConfusion h
      | some cb =>
        simp only [SharedPtr.releaseOn, hb, hblk] at h
        split_ifs at h with h1 h2 <;>
          (injection h with h; rw [← h, List.getElem?_set, if_neg hbne])

/-- C2.  `lock()` on a weak handle with readable members always returns:
the empty handle (both members null, heap untouched) exactly when the
`ctrl` member is null or the strong count is observed at 0; otherwise the
handle made of the weak handle's cached pointer and control block, with the
strong count incremented exactly once (the private
`SharedPtr(T*, control_block_base*)` constructor adds no second
increment). -/
theorem claim2_lock_spec (ops : List Op) (m : Machine) (i : Nat) (w : WeakPtr)
    (c : Option Nat) (p : Ptr)
    (hrun : run ops = some m) (hwi : m.wps[i]? = some (some w))
    (hc : w.ctrl = .val c) (hp : w.ptr = .val p) :
    (WeakPtr.lockOn m.blocks w).isSome = true ∧
    (∀ bs2 h2, WeakPtr.lockOn m.blocks w = some (bs2, h2) →
      ((h2 = emptySP ↔ (c = none ∨ ∃ b s cb, c = some b ∧ m.blocks[b]? = some s ∧
          s.blk = some cb ∧ cb.ref_cnt = 0)) ∧
       (h2 = emptySP → bs2 = m.blocks) ∧
       (∀ b s cb, c = some b → m.blocks[b]? = some s → s.blk = some cb →
          cb.ref_cnt ≠ 0 →
          h2 = ⟨.val p, .val (some b)⟩ ∧
          bs2 = m.blocks.set b ⟨some { cb with ref_cnt := cb.ref_cnt + 1 },
            s.fins, s.zt⟩))) := by
  have hI := run_minv ops m hrun
  cases c with
  | none =>
    have hlock : WeakPtr.lockOn m.blocks w = some (m.blocks, emptySP) := by
      simp only [WeakPtr.lockOn, hc]
    refine ⟨by rw [hlock]; rfl, ?_⟩
    intro bs2 h2 hl2
    rw [hlock] at hl2
    injection hl2 with hl2
    injection hl2 with hbse hh2
    refine ⟨?_, ?_, ?_⟩
    · constructor
      · intro _
        exact Or.inl rfl
      · intro _
        rw [← hh2]
    · intro _
      rw [← hbse]
    · intro b s cb hcb
      exact Option.noConfusion hcb
  | some b0 =>
    have hw1 : cW (some w) b0 = 1 := by simp [cW, hc]
    have hwge := cW_le_countW m.wps i (some w) b0 hwi
    rw [hw1] at hwge
    have hblt : b0 < m.blocks.length := by
      by_contra hcon
      have := (hI.2 b0 (by omega)).2
      omega
    obtain ⟨s, hbs⟩ : ∃ s, m.blocks[b0]? = some s :=
      ⟨_, List.getElem?_eq_getElem hblt⟩
    have hS := hI.1 b0 s hbs
    cases hblk : s.blk with
    | none =>
      obtain ⟨_, _, _, hw0⟩ := hS.2 hblk
      omega
    | some cb =>
      obtain ⟨href, hweak, hlive, hdead⟩ := hS.1 cb hblk
      by_cases hr : cb.ref_cnt = 0
      · have hlock : WeakPtr.lockOn m.blocks w = some (m.blocks, emptySP) := by
          simp only [WeakPtr.lockOn, hc, hbs, hblk, if_pos hr]
        refine ⟨by rw [hlock]; rfl, ?_⟩
        intro bs2 h2 hl2
        rw [hlock] at hl2
        injection hl2 with hl2
        injection hl2 with hbse hh2
        refine ⟨?_, ?_, ?_⟩
        · constructor
          · intro _
            exact Or.inr ⟨b0, s, cb, rfl, hbs, hblk, hr⟩
          · intro _
            rw [← hh2]
        · intro _
          rw [← hbse]
        · intro b s2 cb2 hcb hbs2 hblk2 hrnz
          injection hcb with hcb
          subst hcb
          rw [hbs] at hbs2
          injection hbs2 with hbs2
          subst hbs2
          rw [hblk] at hblk2
          injection hblk2 with hblk2
          subst hblk2
          exact absurd hr hrnz
      · have hlock : WeakPtr.lockOn m.blocks w =
            some (m.blocks.set b0 ⟨some { cb with ref_cnt := cb.ref_cnt + 1 },
              s.fins, s.zt⟩, ⟨.val p, .val (some b0)⟩) := by
          simp only [WeakPtr.lockOn, hc, hbs, hblk, if_neg hr, hp]
        refine ⟨by rw [hlock]; rfl, ?_⟩
        intro bs2 h2 hl2
        rw [hlock] at hl2
        injection hl2 with hl2
        injection hl2 with hbse hh2
        have hne : h2 ≠ emptySP := by
          rw [← hh2]
          intro habs
          have hctr : HVal.val (α := Option Nat) (some b0) = HVal.val none :=
            congrArg SharedPtr.ctrl habs
          injection hctr with hctr
          exact Option.noConfusion hctr
        refine ⟨?_, ?_, ?_⟩
        · constructor
          · intro habs
            exact absurd habs hne
          · intro hrhs
            exfalso
            rcases hrhs with h0 | ⟨b, s2, cb2, hcb, hbs2, hblk2, hr2⟩
            · exact Option.noConfusion h0
            · injection hcb with hcb
              subst hcb
              rw [hbs] at hbs2
              injection hbs2 with hbs2
              subst hbs2
              rw [hblk] at hblk2
              injection hblk2 with hblk2
              subst hblk2
              exact hr hr2
        · intro habs
          exact absurd habs hne
        · intro b s2 cb2 hcb hbs2 hblk2 _
          injection hcb with hcb
          subst hcb
          rw [hbs] at hbs2
          injection hbs2 with hbs2
          subst hbs2
          rw [hblk] at hblk2
          injection hblk2 with hblk2
          subst hblk2
          rw [← hh2, ← hbse]
          exact ⟨rfl, rfl⟩

theorem claim2_witness :
    (WeakPtr.lockOn mC2.blocks wC2).isSome = true ∧
    (∀ bs2 h2, WeakPtr.lockOn mC2.blocks wC2 = some (bs2, h2) →
      ((h2 = emptySP ↔ ((some 0 : Option Nat) = none ∨ ∃ b s cb,
          (some 0 : Option Nat) = some b ∧ mC2.blocks[b]? = some s ∧
          s.blk = some cb ∧ cb.ref_cnt = 0)) ∧
       (h2 = emptySP → bs2 = mC2.blocks) ∧
       (∀ b s cb, (some 0 : Option Nat) = some b → mC2.blocks[b]? = some s →
          s.blk = some cb → cb.ref_cnt ≠ 0 →
          h2 = ⟨.val (some 4), .val (some b)⟩ ∧
          bs2 = mC2.blocks.set b ⟨some { cb with ref_cnt := cb.ref_cnt + 1 },
            s.fins, s.zt⟩))) :=
  claim2_lock_spec [.newSP (some 4), .newWP 0] mC2 0 wC2 (some 0) (some 4)
    (by decide) (by decide) rfl rfl

/-- C4.  `use_count()` returns 0 on an empty handle, and on a handle naming
block `b` it returns the strong counter, whose value in any reachable state
is exactly the number of live `SharedPtr` objects naming `b` — in particular,
after constructing k live handles to one resource it returns k. -/
theorem claim4_use_count (ops : List Op) (m : Machine) (i : Nat) (h : SharedPtr)
    (hrun : run ops = some m) (hi : m.sps[i]? = some (some h)) :
    (h.ctrl = .val none → use_count m.blocks h = some 0) ∧
    (∀ b, h.ctrl = .val (some b) →
      use_count m.blocks h = some ((countS m.sps b : Int))) := by
  have hI := run_minv ops m hrun
  constructor
  · intro hc
    simp only [use_count, hc]
  · intro b hc
    have h1 := cS_le_countS m.sps i (some h) b hi
    rw [cS_eq_one h b hc] at h1
    have hblt : b < m.blocks.length := by
      by_contra hcon
      have := (hI.2 b (by omega)).1
      omega
    obtain ⟨s, hbs⟩ : ∃ s, m.blocks[b]? = some s := ⟨_, List.getElem?_eq_getElem hblt⟩
    have hS := hI.1 b s hbs
    cases hblk : s.blk with
    | none =>
      obtain ⟨_, _, hs0, _⟩ := hS.2 hblk
      omega
    | some cb =>
      obtain ⟨href, _, _, _⟩ := hS.1 cb hblk
      simp only [use_count, hc, hbs, hblk]
      rw [href]

theorem claim4_witness :
    ((⟨.val (some 3), .val (some 0)⟩ : SharedPtr).ctrl = .val none →
      use_count mC4.blocks ⟨.val (some 3), .val (some 0)⟩ = some 0) ∧
    (∀ b, (⟨.val (some 3), .val (some 0)⟩ : SharedPtr).ctrl = .val (some b) →
      use_count mC4.blocks ⟨.val (some 3), .val (some 0)⟩ =
        some ((countS mC4.sps b : Int))) :=
  claim4_use_count [.newSP (some 3), .copySP 0] mC4 0 ⟨.val (some 3), .val (some 0)⟩
    (by decide) (by decide)

/-- C10.  Self-assignment (copy or move) short-circuits on the address
comparison `this == &other` and is the identity on the whole machine state:
the handle's cached pointer and control-block reference and the block's
strong count are all unchanged. -/
theorem claim10_self_assign_noop (m : Machine) (i : Nat) (h : SharedPtr)
    (hi : m.sps[i]? = some (some h)) :
    m.step (.assignSP i i) = some m ∧ m.step (.massignSP i i) = some m := by
  have hg := getSP_of m i h hi
  constructor
  · simp [Machine.step, hg]
  · simp [Machine.step, hg]

theorem claim10_witness :
    mC10.step (.assignSP 0 0) = some mC10 ∧ mC10.step (.massignSP 0 0) = some mC10 :=
  claim10_self_assign_noop mC10 0 ⟨.val (some 2), .val (some 0)⟩ (by decide)

/-- C8.  Move construction appends a handle carrying the source's members,
empties the source (both members null), and leaves the heap — hence every
block's strong count — untouched.  Move assignment transfers the members
and empties the source; its only heap effect is the destination's own
release of its previous reference: with an empty destination the heap is
untouched, and any block the destination did not hold (in particular the
source's block whenever it differs) keeps its slot unchanged. -/
theorem claim8_move_transfer (m : Machine) (src : Nat) (hs : SharedPtr)
    (cs : Option Nat) (ps : Ptr)
    (hsrc : m.sps[src]? = some (some hs)) (hcs : hs.ctrl = .val cs)
    (hps : hs.ptr = .val ps) :
    m.step (.moveSP src) =
      some { m with sps := (m.sps.set src (some emptySP)) ++ [some ⟨.val ps, .val cs⟩] } ∧
    (∀ dst hd cd pd bs2, dst ≠ src →
      m.sps[dst]? = some (some hd) → hd.ctrl = .val cd → hd.ptr = .val pd →
      SharedPtr.releaseOn m.blocks cd = some bs2 →
      m.step (.massignSP dst src) = some { m with
        blocks := bs2,
        sps := (m.sps.set dst (some ⟨.val ps, .val cs⟩)).set src (some emptySP) } ∧
      (cd = none → bs2 = m.blocks) ∧
      (∀ b, some b ≠ cd → bs2[b]? = m.blocks[b]?)) := by
  have hg := getSP_of m src hs hsrc
  have hcr : hs.ctrl.read = some cs := by
    rw [hcs]
    rfl
  have hpr : hs.ptr.read = some ps := by
    rw [hps]
    rfl
  constructor
  · simp only [Machine.step, hg, hcr, hpr]
  · intro dst hd cd pd bs2 hdne hdst hcd hpd hrel
    have hgd := getSP_of m dst hd hdst
    have hcdr : hd.ctrl.read = some cd := by
      rw [hcd]
      rfl
    refine ⟨?_, ?_, ?_⟩
    · simp only [Machine.step, hgd, hg, if_neg hdne, hcdr, hrel, hcr, hpr]
    · intro hcdn
      subst hcdn
      simp only [SharedPtr.releaseOn] at hrel
      injection hrel with hrel
      rw [← hrel]
    · intro b hbne
      exact spReleaseOn_get_ne m.blocks bs2 cd b hrel hbne

theorem claim8_witness :
    mC8.step (.moveSP 1) = some { mC8 with
      sps := (mC8.sps.set 1 (some emptySP)) ++ [some ⟨.val (some 11), .val (some 1)⟩] } ∧
    mC8.step (.massignSP 0 1) = some { mC8 with
      blocks := bsC8,
      sps := (mC8.sps.set 0 (some ⟨.val (some 11), .val (some 1)⟩)).set 1
        (some emptySP) } ∧
    bsC8[1]? = mC8.blocks[1]? := by
  have h := claim8_move_transfer mC8 1 ⟨.val (some 11), .val (some 1)⟩ (some 1) (some 11)
    (by decide) rfl rfl
  have h2 := h.2 0 ⟨.val (some 10), .val (some 0)⟩ (some 0) (some 10) bsC8
    (by decide) (by decide) rfl rfl (by decide)
  exact ⟨h.1, h2.1, h2.2.2 1 (by decide)⟩

/-- C9.  Constructing a `SharedPtr` from a null raw pointer still allocates
a control block with strong count 1 and weak count 0 and stores the null
resource pointer; the handle's boolean conversion is false and `get()`
returns the null pointer; destroying the handle invokes the finalizer
exactly once, with the null pointer as argument, and deallocates the
control block. -/
theorem claim9_null_pointer_construction :
    run [.newSP none] = some ⟨[⟨some ⟨1, 0, none⟩, [], 0⟩],
      [some ⟨.val none, .val (some 0)⟩], []⟩ ∧
    SharedPtr.boolConv ⟨.val none, .val (some 0)⟩ = some false ∧
    SharedPtr.get ⟨.val none, .val (some 0)⟩ = some none ∧
    run [.newSP none, .dropSP 0] = some ⟨[⟨none, [none], 1⟩], [none], []⟩ :=
  ⟨by decide, rfl, rfl, by decide⟩

/-- C6.  The copy constructor `SharedPtr(const SharedPtr&)` and the
converting constructor `WeakPtr(const SharedPtr<T>&)` have no
member-initialiser list, and their bodies assign the members only when the
source's `ctrl` is non-null: constructed from an empty handle, the new
handle's two members are left indeterminate, not null (contrast the
converting copy constructor at control_.hpp:106, which does initialise them
to nullptr).  Reading them — by `get()`, the boolean conversion, `swap`, or
`release()` in the destructor — is undefined behaviour, not a null result. -/
theorem claim6_copy_from_empty_uninitialized :
    SharedPtr.copyCtor [] emptySP = some ([], ⟨.indet, .indet⟩) ∧
    WeakPtr.fromShared [] emptySP = some ([], ⟨.indet, .indet⟩) ∧
    (⟨.indet, .indet⟩ : SharedPtr) ≠ emptySP ∧
    (⟨.indet, .indet⟩ : WeakPtr) ≠ emptyWP ∧
    SharedPtr.get ⟨.indet, .indet⟩ = none ∧
    SharedPtr.boolConv ⟨.indet, .indet⟩ = none :=
  ⟨rfl, rfl, by decide, by decide, rfl, rfl⟩

/-- C5.  The factory yields the combined allocation with strong count 1 and
weak count 0, the constructor arguments (10, 3.14, "hello") observable in
the embedded resource, and no finalization yet; dropping the returned handle
runs the finalizer exactly once and deallocates the combined allocation. -/
theorem claim5_factory_single_allocation :
    (factory_construct demoCtor (10, 3.14, "hello")).ref_cnt = 1 ∧
    (factory_construct demoCtor (10, 3.14, "hello")).weak_cnt = 0 ∧
    (factory_construct demoCtor (10, 3.14, "hello")).obj.value = 10 ∧
    (factory_construct demoCtor (10, 3.14, "hello")).obj.pair = 3.14 ∧
    (factory_construct demoCtor (10, 3.14, "hello")).obj.text = "hello" ∧
    (factory_construct demoCtor (10, 3.14, "hello")).fins = 0 ∧
    (factory_construct demoCtor (10, 3.14, "hello")).freed = false ∧
    (combinedRelease (factory_construct demoCtor (10, 3.14, "hello"))).fins = 1 ∧
    (combinedRelease (factory_construct demoCtor (10, 3.14, "hello"))).freed = true :=
  ⟨rfl, rfl, rfl, rfl, rfl, rfl, rfl, rfl, rfl⟩

/-- C7 fails on the code: in the interleaving where both threads first
perform their `fetch_sub` and only then their check of the other counter,
each observes the other counter already at 0, so BOTH run `delete ctrl` —
the control block is deallocated twice (`frees = 2`, a double free), with
both threads running to completion.  The finalizer still runs once. -/
theorem claim7_double_free_interleaving :
    (raceRun [true, false, true, true, true, false, false] raceStart).frees = 2 ∧
    (raceRun [true, false, true, true, true, false, false] raceStart).fins = 1 ∧
    (raceRun [true, false, true, true, true, false, false] raceStart).spc = 4 ∧
    (raceRun [true, false, true, true, true, false, false] raceStart).wpc = 3 :=
  ⟨by decide, by decide, by decide, by decide⟩
